import Mathlib

/-!
Shallow embedding of `docs_tester.py`: the branch-reconstruction algorithm
`build_branches_for_language`, the fenced-code-block extractor
`extract_code_blocks_into`, the steps-section extractor
`extract_steps_section`, and the executor `execute_code_file`.

Python dicts are modelled as association lists in insertion order
(updates keep position, new keys append), matching Python 3.7+ dict
semantics.  Python `str.strip()` is modelled by `pyStrip`.
-/

namespace DocsTester

/-- Characters stripped by Python `str.strip()` (ASCII whitespace). -/
def isPySpace (c : Char) : Bool :=
  c = ' ' || c = '\t' || c = '\n' || c = '\r' || c = Char.ofNat 11 || c = Char.ofNat 12

def lstripL (l : List Char) : List Char := l.dropWhile isPySpace

def rstripL (l : List Char) : List Char := (l.reverse.dropWhile isPySpace).reverse

def stripL (l : List Char) : List Char := rstripL (lstripL l)

/-- Python `s.strip()`. -/
def pyStrip (s : String) : String := String.mk (stripL s.data)

/-- Python `"\n\n".join(l)`. -/
def joinBlank : List String → String
  | [] => ""
  | [s] => s
  | s :: rest => s ++ "\n\n" ++ joinBlank rest

/-- Python `str.lower()` (ASCII; the recognized tags are ASCII). -/
def charLower (c : Char) : Char :=
  if 'A' ≤ c ∧ c ≤ 'Z' then Char.ofNat (c.toNat + 32) else c

def strLower (s : String) : String := String.mk (s.data.map charLower)

/-- Python dict lookup `d[k]` / `d.get(k)`. -/
def dGet? {α : Type} : List (String × α) → String → Option α
  | [], _ => none
  | p :: t, k => if p.1 = k then some p.2 else dGet? t k

/-- Python `k in d`. -/
def dMem {α : Type} : List (String × α) → String → Bool
  | [], _ => false
  | p :: t, k => if p.1 = k then true else dMem t k

/-- Python `d[k] = v`: update in place if present, else append. -/
def dSet {α : Type} : List (String × α) → String → α → List (String × α)
  | [], k, v => [(k, v)]
  | p :: t, k, v => if p.1 = k then (k, v) :: t else p :: dSet t k v

/-- A parsed `<Step>` as produced by `extract_steps` (line 81 of the source):
title, common code per language, and tab title to per-language code. -/
structure MdxStep where
  title : String
  common_code : List (String × List String)
  tabs : List (String × List (String × List String))

/-- The `valid_tabs` collection loop of `build_branches_for_language`
(lines 158-163): tabs that have a non-empty snippet list for `lang`,
each reduced to its blank-line-joined, stripped code string. -/
def validTabsAux (lang : String) : List (String × List (String × List String)) →
    List (String × String) → List (String × String)
  | [], acc => acc
  | p :: t, acc =>
    match dGet? p.2 lang with
    | some snippets =>
      if snippets.isEmpty then validTabsAux lang t acc
      else validTabsAux lang t (dSet acc p.1 (pyStrip (joinBlank snippets)))
    | none => validTabsAux lang t acc

def validTabsOf (step : MdxStep) (lang : String) : List (String × String) :=
  validTabsAux lang step.tabs []

/-- `combined_common` (lines 154-155): the step's common snippets for `lang`,
blank-line joined and stripped. -/
def stepCommon (step : MdxStep) (lang : String) : String :=
  pyStrip (joinBlank ((dGet? step.common_code lang).getD []))

/-- Lines 167-169 / 173-175: append `cc` to every branch when `cc` is non-empty. -/
def appendCommonAll (cur : List (String × String)) (cc : String) : List (String × String) :=
  if cc = "" then cur
  else cur.map (fun p => (p.1, pyStrip (p.2 ++ "\n\n" ++ cc)))

/-- Python `used_tab_titles.add t` (a set: membership only matters). -/
def addUsed (used : List String) (t : String) : List String :=
  if t ∈ used then used else t :: used

/-- Inner loop of the reconciliation (lines 181-193), for one branch. -/
def tabsLoop (branch code_so_far : String) : List (String × String) →
    List (String × String) → List String → List (String × String) × List String
  | [], nb, used => (nb, used)
  | p :: rest, nb, used =>
    if p.1 = branch then
      tabsLoop branch code_so_far rest
        (dSet nb p.1 (pyStrip (code_so_far ++ "\n\n" ++ p.2))) (addUsed used p.1)
    else if branch = "" then
      tabsLoop branch code_so_far rest
        (dSet nb p.1 (pyStrip (code_so_far ++ (if p.2 = "" then "" else "\n\n" ++ p.2))))
        (addUsed used p.1)
    else if dMem nb branch then
      tabsLoop branch code_so_far rest nb used
    else
      tabsLoop branch code_so_far rest (dSet nb branch code_so_far) used

/-- Outer loop of the reconciliation (line 180): over current branches. -/
def branchesLoop (tabs : List (String × String)) : List (String × String) →
    List (String × String) → List String → List (String × String) × List String
  | [], nb, used => (nb, used)
  | p :: rest, nb, used =>
    let r := tabsLoop p.1 p.2 tabs nb used
    branchesLoop tabs rest r.1 r.2

/-- Lines 195-197: every tab not yet represented becomes a fresh branch. -/
def unusedLoop (cc : String) : List (String × String) → List String →
    List (String × String) → List (String × String)
  | [], _, nb => nb
  | p :: rest, used, nb =>
    if p.1 ∈ used then unusedLoop cc rest used nb
    else unusedLoop cc rest used
      (dSet nb p.1 (if cc = "" then p.2 else pyStrip (cc ++ "\n\n" ++ p.2)))

/-- One iteration of the main loop of `build_branches_for_language`
(lines 153-198). -/
def processStep (lang : String) (cur : List (String × String)) (step : MdxStep) :
    List (String × String) :=
  let cc := stepCommon step lang
  let vt := validTabsOf step lang
  if vt.isEmpty then appendCommonAll cur cc
  else
    let cur' := appendCommonAll cur cc
    let r := branchesLoop vt cur' [] []
    unusedLoop cc vt r.2 r.1

/-- The `current` mapping after the main loop, before the final trim. -/
def buildCurrent (steps : List MdxStep) (lang : String) : List (String × String) :=
  steps.foldl (processStep lang) [("", "")]

/-- `build_branches_for_language` (lines 133-203). -/
def build_branches_for_language (steps : List MdxStep) (lang : String) :
    List (String × String) :=
  (buildCurrent steps lang).map (fun p => (p.1, pyStrip p.2))

/-- Step 1 of the spec's example scenario: only common code for the language. -/
def exStep1 (lang : String) : MdxStep :=
  { title := "step1"
    common_code := [(lang, ["print(\"start\")"])]
    tabs := [] }

/-- Step 2 of the spec's example scenario: a variant group with Linux and Mac. -/
def exStep2 (lang : String) : MdxStep :=
  { title := "step2"
    common_code := []
    tabs := [("Linux", [(lang, ["print(\"linux\")"])]),
             ("Mac", [(lang, ["print(\"mac\")"])])] }

/-- `LANGUAGE_CONFIG` (lines 15-19): language to (extension, command). -/
def LANGUAGE_CONFIG : List (String × (String × List String)) :=
  [("python", (".py", ["python"])),
   ("javascript", (".js", ["node"])),
   ("bash", (".sh", ["bash"]))]

def backtick : Char := Char.ofNat 96

def dropSpaces (l : List Char) : List Char := l.dropWhile isPySpace

def startsWithFence : List Char → Bool
  | a :: b :: c :: _ => a = backtick && b = backtick && c = backtick
  | _ => false

/-- A character matched by the regex class `[\w+-]` (ASCII part). -/
def isWordTagChar (c : Char) : Bool :=
  c.isAlphanum || c = '_' || c = '+' || c = '-'

/-- Drop up to and including the first newline; `none` when no newline is left. -/
def dropLine : List Char → Option (List Char)
  | [] => none
  | c :: t => if c = '\n' then some t else dropLine t

/-- Take one full line (newline included) off the front; `none` when no newline. -/
def takeLine : List Char → Option (List Char × List Char)
  | [] => none
  | c :: t =>
    if c = '\n' then some ([c], t)
    else match takeLine t with
      | none => none
      | some r => some (c :: r.1, r.2)

/-- Search, line start by line start, for the closing fence `^\s*` + three
backticks of the code-block regex (line 120); returns the block body and the
text just after the closing backticks. -/
def findCloseAux : Nat → List Char → Option (List Char × List Char)
  | 0, _ => none
  | fuel + 1, l =>
    if startsWithFence (dropSpaces l) then some ([], (dropSpaces l).drop 3)
    else match takeLine l with
      | none => none
      | some r =>
        match findCloseAux fuel r.2 with
        | none => none
        | some b => some (r.1 ++ b.1, b.2)

/-- Scan for all matches of the fenced-code-block regex of line 120,
returning (optional language tag, raw body) for each. -/
def scanBlocksAux : Nat → List Char → List (Option (List Char) × List Char)
  | 0, _ => []
  | fuel + 1, l =>
    let r := dropSpaces l
    if startsWithFence r then
      let afterTicks := r.drop 3
      let tag := afterTicks.takeWhile isWordTagChar
      match dropLine (afterTicks.drop tag.length) with
      | none => []
      | some body0 =>
        match findCloseAux fuel body0 with
        | none => []
        | some b =>
          ((if tag.isEmpty then none else some tag), b.1) ::
            (match dropLine b.2 with
             | none => []
             | some l' => scanBlocksAux fuel l')
    else
      match dropLine l with
      | none => []
      | some l' => scanBlocksAux fuel l'

def splitNl : List Char → List (List Char)
  | [] => [[]]
  | c :: t =>
    if c = '\n' then [] :: splitNl t
    else match splitNl t with
      | [] => [[c]]
      | l :: ls => (c :: l) :: ls

def joinNl : List (List Char) → List Char
  | [] => []
  | [l] => l
  | l :: rest => l ++ '\n' :: joinNl rest

def isIndentChar (c : Char) : Bool := c = ' ' || c = '\t'

/-- Longest common prefix of two character lists. -/
def lcp : List Char → List Char → List Char
  | a :: as, b :: bs => if a = b then a :: lcp as bs else []
  | _, _ => []

def isPrefAt : List Char → List Char → Bool
  | [], _ => true
  | _ :: _, [] => false
  | a :: as, b :: bs => a = b && isPrefAt as bs

/-- `textwrap.dedent`: blank whitespace-only lines, compute the common
leading `[ \t]` margin of content lines, and remove it from every line. -/
def dedentL (l : List Char) : List Char :=
  let lines := (splitNl l).map (fun ln =>
    if !ln.isEmpty && ln.all isIndentChar then [] else ln)
  let margin := lines.foldl (fun (m : Option (List Char)) ln =>
    if (ln.dropWhile isIndentChar).isEmpty then m
    else match m with
      | none => some (ln.takeWhile isIndentChar)
      | some mm => some (lcp mm (ln.takeWhile isIndentChar))) none
  match margin with
  | none => joinNl lines
  | some [] => joinNl lines
  | some mm => joinNl (lines.map (fun ln =>
      if isPrefAt mm ln then ln.drop mm.length else ln))

/-- Python `code_map.setdefault(lang, []).append(code)`. -/
def dAppend : List (String × List String) → String → String → List (String × List String)
  | [], k, v => [(k, [v])]
  | p :: t, k, v => if p.1 = k then (p.1, p.2 ++ [v]) :: t else p :: dAppend t k v

/-- Loop body of `extract_code_blocks_into` (lines 121-129): skip untagged
blocks, lower-case the tag, and record the dedented+stripped body only when
the language is recognized. -/
def recordBlock (cm : List (String × List String)) (b : Option (List Char) × List Char) :
    List (String × List String) :=
  match b.1 with
  | none => cm
  | some tagChars =>
    let lang := strLower (String.mk tagChars)
    if dMem LANGUAGE_CONFIG lang then
      dAppend cm lang (pyStrip (String.mk (dedentL b.2)))
    else cm

/-- `extract_code_blocks_into` (lines 106-129). -/
def extract_code_blocks_into (text : String) (code_map : List (String × List String)) :
    List (String × List String) :=
  (scanBlocksAux (text.data.length + 1) text.data).foldl recordBlock code_map

/-- First index at which `pat` occurs as a contiguous sublist. -/
def findSubAux (pat : List Char) : List Char → Option Nat
  | [] => if isPrefAt pat [] then some 0 else none
  | c :: t => if isPrefAt pat (c :: t) then some 0 else (findSubAux pat t).map (· + 1)

def stepsOpenTag : List Char := ("<Steps>").data

def stepsCloseTag : List Char := ("</Steps>").data

/-- `extract_steps_section` (lines 44-55): the text between the first
`<Steps>` and the first `</Steps>` after it, or `""`. -/
def extract_steps_section (content : String) : String :=
  match findSubAux stepsOpenTag content.data with
  | none => ""
  | some i =>
    let rest := content.data.drop (i + stepsOpenTag.length)
    match findSubAux stepsCloseTag rest with
    | none => ""
    | some j => String.mk (rest.take j)

/-- The dictionary returned by `execute_code_file`. -/
structure ExecResult where
  output : String
  error : String
  exit_code : Int
  deriving Repr, DecidableEq

/-- Outcome of the `subprocess.run` call (external collaborator): normal
completion, `TimeoutExpired` (with the partial stdout it carries and the
exception text), or any other exception. -/
inductive RunOutcome where
  | completed (stdout stderr : String) (returncode : Int)
  | timedOut (partialStdout : Option String) (excText : String)
  | failed (excText : String)

/-- Line 219: `timeout = None if lang == "bash" else 30`. -/
def subprocessTimeout (lang : String) : Option Nat :=
  if lang = "bash" then none else some 30

/-- `execute_code_file` (lines 206-234), with the `subprocess.run` call
abstracted as `run`, which receives the computed timeout. -/
def execute_code_file (run : Option Nat → RunOutcome) (lang : String) : ExecResult :=
  match run (subprocessTimeout lang) with
  | .completed o e c => ⟨pyStrip o, pyStrip e, c⟩
  | .timedOut p exc => ⟨p.getD (""), "Command timed out: " ++ exc, -1⟩
  | .failed exc => ⟨"", exc, -1⟩

/-! ### Basic dictionary lemmas -/

theorem dGet?_dSet_self {α : Type} (d : List (String × α)) (k : String) (v : α) :
    dGet? (dSet d k v) k = some v := by
  induction d with
  | nil => simp [dSet, dGet?]
  | cons p t ih =>
    by_cases h : p.1 = k
    · simp [dSet, h, dGet?]
    · simp [dSet, h, dGet?, ih]

theorem dGet?_dSet_ne {α : Type} (d : List (String × α)) (k k' : String) (v : α)
    (h : k' ≠ k) : dGet? (dSet d k v) k' = dGet? d k' := by
  have h' : ¬k = k' := fun hh => h hh.symm
  induction d with
  | nil => simp [dSet, dGet?, h']
  | cons p t ih =>
    by_cases hp : p.1 = k
    · subst hp
      simp [dSet, dGet?, h']
    · by_cases hp' : p.1 = k'
      · simp [dSet, hp, dGet?, hp', h]
      · simp [dSet, hp, dGet?, hp', ih]

theorem dMem_eq_isSome_dGet? {α : Type} (d : List (String × α)) (k : String) :
    dMem d k = (dGet? d k).isSome := by
  induction d with
  | nil => simp [dMem, dGet?]
  | cons p t ih =>
    by_cases h : p.1 = k <;> simp [dMem, dGet?, h, ih]

theorem dMem_dSet {α : Type} (d : List (String × α)) (k k' : String) (v : α) :
    dMem (dSet d k v) k' = (dMem d k' || decide (k' = k)) := by
  by_cases h : k' = k
  · subst h
    simp [dMem_eq_isSome_dGet?, dGet?_dSet_self]
  · simp [dMem_eq_isSome_dGet?, dGet?_dSet_ne d k k' v h, h]

theorem dMem_dSet_of {α : Type} (d : List (String × α)) (k k' : String) (v : α)
    (h : dMem d k' = true) : dMem (dSet d k v) k' = true := by
  simp [dMem_dSet, h]

theorem dMem_false_get {α : Type} (d : List (String × α)) (k : String)
    (h : dMem d k = false) : dGet? d k = none := by
  rw [dMem_eq_isSome_dGet?] at h
  exact Option.not_isSome_iff_eq_none.mp (by simp [h])

theorem dMem_false_forall {α : Type} (d : List (String × α)) (k : String)
    (h : dMem d k = false) : ∀ p ∈ d, p.1 ≠ k := by
  induction d with
  | nil => simp
  | cons p t ih =>
    by_cases hp : p.1 = k
    · simp [dMem, hp] at h
    · simp [dMem, hp] at h
      intro q hq
      rcases List.mem_cons.mp hq with rfl | hq
      · exact hp
      · exact ih h q hq

/-- Keys of a dictionary, in insertion order. -/
def dKeys {α : Type} (d : List (String × α)) : List String := d.map Prod.fst

theorem dKeys_dSet {α : Type} (d : List (String × α)) (k : String) (v : α) :
    dKeys (dSet d k v) = if dMem d k then dKeys d else dKeys d ++ [k] := by
  induction d with
  | nil => simp [dSet, dKeys, dMem]
  | cons p t ih =>
    simp only [dKeys] at ih ⊢
    by_cases h : p.1 = k
    · simp [dSet, h, dMem]
    · by_cases hm : dMem t k <;> simp [dSet, h, dMem, ih, hm]

theorem dSet_nodup {α : Type} (d : List (String × α)) (k : String) (v : α)
    (h : (dKeys d).Nodup) : (dKeys (dSet d k v)).Nodup := by
  rw [dKeys_dSet]
  by_cases hm : dMem d k
  · simpa [hm]
  · have hk : k ∉ dKeys d := by
      intro hc
      rcases List.mem_map.mp hc with ⟨p, hp, hpk⟩
      exact absurd hpk (dMem_false_forall d k (by simpa using hm) p hp)
    simp [hm, List.nodup_append, h, hk]

theorem dGet?_map_value {α β : Type} (d : List (String × α)) (f : α → β) (k : String) :
    dGet? (d.map (fun p => (p.1, f p.2))) k = (dGet? d k).map f := by
  induction d with
  | nil => simp [dGet?]
  | cons p t ih =>
    by_cases h : p.1 = k <;> simp [dGet?, h, ih]

theorem dMem_map_value {α β : Type} (d : List (String × α)) (f : α → β) (k : String) :
    dMem (d.map (fun p => (p.1, f p.2))) k = dMem d k := by
  simp [dMem_eq_isSome_dGet?, dGet?_map_value]

/-! ### Claim theorems: the example scenario and direct counterexamples -/

/-- Claim C1: on the spec's two-step example scenario, the branch mapping for
the language is exactly the Linux/Mac mapping, and the default label is gone. -/
theorem example_scenario_branches (lang : String) :
    build_branches_for_language [exStep1 lang, exStep2 lang] lang =
      [("Linux", "print(\"start\")\n\nprint(\"linux\")"),
       ("Mac", "print(\"start\")\n\nprint(\"mac\")")] ∧
    dMem (build_branches_for_language [exStep1 lang, exStep2 lang] lang) ("") = false := by
  constructor
  · simp only [build_branches_for_language, buildCurrent, exStep1, exStep2, processStep,
      validTabsOf, validTabsAux, stepCommon, dGet?, dSet, dMem, appendCommonAll,
      branchesLoop, tabsLoop, unusedLoop, addUsed, List.foldl]
    simp
    constructor <;> decide
  · simp only [build_branches_for_language, buildCurrent, exStep1, exStep2, processStep,
      validTabsOf, validTabsAux, stepCommon, dGet?, dSet, dMem, appendCommonAll,
      branchesLoop, tabsLoop, unusedLoop, addUsed, List.foldl]
    simp

/-- Claim C2 counterexample: in the example scenario the step with valid
variants removes the default label from the mapping, so the default branch is
not present in the final result. -/
theorem default_branch_removed_counterexample :
    dMem (build_branches_for_language
      [exStep1 ("python"), exStep2 ("python")] ("python")) ("") = false := by decide

/-- Steps for the C3 counterexample: step 1 has a variant group with variants
"A" and "" (the empty name), step 2 has only variant "A" again. -/
def c3Step1 : MdxStep :=
  { title := "s1"
    common_code := []
    tabs := [("A", [("python", ["A1"])]), ("", [("python", ["D1"])])] }

def c3Step2 : MdxStep :=
  { title := "s2"
    common_code := []
    tabs := [("A", [("python", ["A2"])])] }

/-- Claim C3 counterexample: branch "A" exists after step 1 with code "A1";
step 2 has common code "" and a valid variant named "A" with code "A2", yet
after step 2 branch "A" holds "D1\n\nA2", not its own accumulation plus the
variant code ("A1\n\nA2"): the default-branch spawn overwrote the match. -/
theorem branch_persistence_counterexample :
    dGet? (buildCurrent [c3Step1] ("python")) ("A") = some ("A1") ∧
    stepCommon c3Step2 ("python") = "" ∧
    dGet? (validTabsOf c3Step2 ("python")) ("A") = some ("A2") ∧
    dGet? (buildCurrent [c3Step1, c3Step2] ("python")) ("A") = some ("D1\n\nA2") ∧
    ("D1\n\nA2" : String) ≠ "A1\n\nA2" := by decide

/-- Steps for the C4 counterexample: no variant groups anywhere, but step 2
contains an empty common code block. -/
def c4Step1 : MdxStep :=
  { title := "s1", common_code := [("python", ["a"])], tabs := [] }

def c4Step2 : MdxStep :=
  { title := "s2", common_code := [("python", ["", "b"])], tabs := [] }

/-- Claim C4 counterexample: for a variant-free document with common blocks
"a" then "", "b", the function yields "a\n\nb", while joining all blocks of
the language with blank-line separators and trimming yields "a\n\n\n\nb":
the per-step strip of the empty block changes the result. -/
theorem default_only_counterexample :
    c4Step1.tabs = [] ∧ c4Step2.tabs = [] ∧
    build_branches_for_language [c4Step1, c4Step2] ("python") = [("", "a\n\nb")] ∧
    pyStrip (joinBlank ["a", "", "b"]) = "a\n\n\n\nb" ∧
    ("a\n\nb" : String) ≠ "a\n\n\n\nb" :=
  ⟨rfl, rfl, by decide, by decide, by decide⟩

/-- Claim C7: the branch mapping depends only on the two arguments: two
invocations on equal parsed steps and equal language give equal label sets
and equal code strings (the embedding of the function is pure). -/
theorem build_branches_deterministic (steps₁ steps₂ : List MdxStep) (lang₁ lang₂ : String)
    (hs : steps₁ = steps₂) (hl : lang₁ = lang₂) :
    build_branches_for_language steps₁ lang₁ = build_branches_for_language steps₂ lang₂ := by
  rw [hs, hl]

/-- Witness for C7, at the example scenario's arguments. -/
theorem build_branches_deterministic_witness :
    build_branches_for_language [exStep1 ("python")] ("python") =
      build_branches_for_language [exStep1 ("python")] ("python") :=
  build_branches_deterministic [exStep1 ("python")] [exStep1 ("python")]
    ("python") ("python") rfl rfl

/-! ### Claim C6: only tagged, recognized languages are attributed -/

theorem dMem_dAppend (cm : List (String × List String)) (k k' v) :
    dMem (dAppend cm k v) k' = (dMem cm k' || decide (k' = k)) := by
  induction cm with
  | nil =>
    by_cases h : k' = k
    · simp [dAppend, dMem, h]
    · have h2 : ¬k = k' := fun hh => h hh.symm
      simp [dAppend, dMem, h, h2]
  | cons p t ih =>
    by_cases hp : p.1 = k
    · subst hp
      by_cases h : k' = p.1 <;> simp [dAppend, dMem, h, ih, Bool.or_assoc]
    · by_cases h : k' = p.1 <;> simp [dAppend, dMem, hp, h, ih, Bool.or_assoc]

theorem foldl_recordBlock_mem (blocks : List (Option (List Char) × List Char))
    (cm : List (String × List String)) (lang : String)
    (h : dMem (blocks.foldl recordBlock cm) lang = true) :
    dMem cm lang = true ∨ dMem LANGUAGE_CONFIG lang = true := by
  induction blocks generalizing cm with
  | nil => exact Or.inl h
  | cons b rest ih =>
    rcases ih (recordBlock cm b) h with hm | hm
    · unfold recordBlock at hm
      rcases b with ⟨tag, body⟩
      cases tag with
      | none => exact Or.inl hm
      | some tagChars =>
        simp only at hm
        by_cases hc : dMem LANGUAGE_CONFIG (strLower (String.mk tagChars))
        · rw [if_pos hc, dMem_dAppend] at hm
          rcases Bool.or_eq_true_iff.mp hm with hm | hm
          · exact Or.inl hm
          · right
            rwa [of_decide_eq_true hm]
        · rw [if_neg hc] at hm
          exact Or.inl hm
    · exact Or.inr hm

/-- Whether a scanned block carries a fence tag whose lower-casing is `lang`,
with `lang` recognized: exactly the blocks lines 124-128 attribute to `lang`. -/
def blockTaggedAs (lang : String) (b : Option (List Char) × List Char) : Bool :=
  match b.1 with
  | none => false
  | some t => decide (strLower (String.mk t) = lang) && dMem LANGUAGE_CONFIG lang

/-- The codes a text contributes to `lang`: the dedented, stripped bodies of
exactly those fenced blocks whose tag, lower-cased, is `lang` and recognized. -/
def taggedCodes (text : String) (lang : String) : List String :=
  ((scanBlocksAux (text.data.length + 1) text.data).filter (blockTaggedAs lang)).map
    (fun b => pyStrip (String.mk (dedentL b.2)))

theorem dGet?_dAppend_self (cm : List (String × List String)) (k : String) (v : String) :
    dGet? (dAppend cm k v) k = some ((dGet? cm k).getD [] ++ [v]) := by
  induction cm with
  | nil => simp [dAppend, dGet?]
  | cons p t ih =>
    by_cases h : p.1 = k
    · simp [dAppend, h, dGet?]
    · simp [dAppend, h, dGet?, ih]

theorem dGet?_dAppend_ne (cm : List (String × List String)) (k k' : String) (v : String)
    (h : k' ≠ k) : dGet? (dAppend cm k v) k' = dGet? cm k' := by
  have h' : ¬k = k' := fun hh => h hh.symm
  induction cm with
  | nil => simp [dAppend, dGet?, h']
  | cons p t ih =>
    by_cases hp : p.1 = k
    · subst hp
      simp [dAppend, dGet?, h']
    · by_cases hp' : p.1 = k'
      · simp [dAppend, hp, dGet?, hp', h]
      · simp [dAppend, hp, dGet?, hp', ih]

/-- Folding the recording step over any block list: the snippet list of each
language is its initial list extended by the codes of exactly the blocks
tagged (after lower-casing) with that recognized language, in order.  Blocks
with no tag, or with an unrecognized tag, contribute to no language. -/
theorem foldl_recordBlock_get (blocks : List (Option (List Char) × List Char))
    (cm : List (String × List String)) (lang : String) :
    (dGet? (blocks.foldl recordBlock cm) lang).getD [] =
      (dGet? cm lang).getD [] ++
        ((blocks.filter (blockTaggedAs lang)).map
          (fun b => pyStrip (String.mk (dedentL b.2)))) := by
  induction blocks generalizing cm with
  | nil => simp
  | cons b rest ih =>
    rw [List.foldl_cons, List.filter_cons]
    rcases b with ⟨tag, body⟩
    cases tag with
    | none =>
      have hblk : blockTaggedAs lang (none, body) = false := rfl
      rw [if_neg (by rw [hblk]; exact Bool.false_ne_true)]
      have hrec : recordBlock cm (none, body) = cm := rfl
      rw [hrec]
      exact ih cm
    | some t =>
      by_cases hcfg : dMem LANGUAGE_CONFIG (strLower (String.mk t)) = true
      · have hrec : recordBlock cm (some t, body) =
            dAppend cm (strLower (String.mk t)) (pyStrip (String.mk (dedentL body))) := by
          show (if dMem LANGUAGE_CONFIG (strLower (String.mk t)) = true
                then dAppend cm (strLower (String.mk t)) (pyStrip (String.mk (dedentL body)))
                else cm) = _
          rw [if_pos hcfg]
        by_cases heq : strLower (String.mk t) = lang
        · have hblk : blockTaggedAs lang (some t, body) = true := by
            show (decide (strLower (String.mk t) = lang) && dMem LANGUAGE_CONFIG lang) = true
            rw [heq] at hcfg ⊢
            simp [hcfg]
          rw [if_pos hblk, hrec, ih, heq, dGet?_dAppend_self]
          simp [List.append_assoc]
        · have hblk : blockTaggedAs lang (some t, body) = false := by
            show (decide (strLower (String.mk t) = lang) && dMem LANGUAGE_CONFIG lang) = false
            simp [heq]
          rw [if_neg (by rw [hblk]; exact Bool.false_ne_true), hrec, ih,
            dGet?_dAppend_ne _ _ _ _ (fun hh => heq hh.symm)]
      · have hrec : recordBlock cm (some t, body) = cm := by
          show (if dMem LANGUAGE_CONFIG (strLower (String.mk t)) = true
                then dAppend cm (strLower (String.mk t)) (pyStrip (String.mk (dedentL body)))
                else cm) = cm
          rw [if_neg hcfg]
        have hblk : blockTaggedAs lang (some t, body) = false := by
          show (decide (strLower (String.mk t) = lang) && dMem LANGUAGE_CONFIG lang) = false
          by_cases heq : strLower (String.mk t) = lang
          · rw [heq] at hcfg
            have hmf : dMem LANGUAGE_CONFIG lang = false := by
              cases hx : dMem LANGUAGE_CONFIG lang
              · rfl
              · exact absurd hx hcfg
            simp [hmf]
          · simp [heq]
        rw [if_neg (by rw [hblk]; exact Bool.false_ne_true), hrec]
        exact ih cm

/-- Claim C6: extraction attributes a fenced block to a language only when the
block's opening fence carries a tag that, lower-cased, is in the recognized
table: for every language, the final snippet list is the initial one extended
by the codes of exactly the blocks so tagged — untagged or unrecognized-tagged
blocks appear in no language's snippet list — and any language key of the
result was already present or is recognized. -/
theorem extraction_excludes_untagged_unrecognized (text : String)
    (cm : List (String × List String)) (lang : String) :
    (dGet? (extract_code_blocks_into text cm) lang).getD [] =
      (dGet? cm lang).getD [] ++ taggedCodes text lang ∧
    (dMem (extract_code_blocks_into text cm) lang = true →
      dMem cm lang = true ∨ dMem LANGUAGE_CONFIG lang = true) :=
  ⟨foldl_recordBlock_get _ cm lang, foldl_recordBlock_mem _ cm lang⟩

/-- Witness for C6 on a text holding a python block, an unrecognized Ruby
block and an untagged block: the content equation is instantiated at "ruby"
(whose snippet list stays empty) and the key bound at "python". -/
theorem extraction_excludes_untagged_unrecognized_witness :
    ((dGet? (extract_code_blocks_into
        ("```python\nx = 1\n```\n```Ruby\nz\n```\n```\nu\n```\n") []) ("ruby")).getD [] =
      (dGet? ([] : List (String × List String)) ("ruby")).getD [] ++
        taggedCodes ("```python\nx = 1\n```\n```Ruby\nz\n```\n```\nu\n```\n") ("ruby")) ∧
    (dMem ([] : List (String × List String)) ("python") = true ∨
      dMem LANGUAGE_CONFIG ("python") = true) :=
  ⟨(extraction_excludes_untagged_unrecognized
      ("```python\nx = 1\n```\n```Ruby\nz\n```\n```\nu\n```\n") [] ("ruby")).1,
   (extraction_excludes_untagged_unrecognized ("```python\nx = 1\n```\n") [] ("python")).2
     (by decide)⟩

/-! ### Claim C8: first steps span only, empty string otherwise -/

theorem findSubAux_cons_none (pat : List Char) (c : Char) (t : List Char)
    (h : findSubAux pat (c :: t) = none) : findSubAux pat t = none := by
  unfold findSubAux at h
  by_cases hp : isPrefAt pat (c :: t)
  · simp [hp] at h
  · simp [hp] at h
    cases hfind : findSubAux pat t with
    | none => rfl
    | some j => simp [hfind] at h

theorem findSubAux_drop_none (pat : List Char) (l : List Char) (n : Nat)
    (h : findSubAux pat l = none) : findSubAux pat (l.drop n) = none := by
  induction n generalizing l with
  | zero => simpa using h
  | succ n ih =>
    cases l with
    | nil => simpa using h
    | cons c t =>
      rw [List.drop_succ_cons]
      exact ih t (findSubAux_cons_none pat c t h)

theorem findSubAux_some_isPrefAt (pat l : List Char) (n : Nat)
    (h : findSubAux pat l = some n) : isPrefAt pat (l.drop n) = true := by
  induction l generalizing n with
  | nil =>
    unfold findSubAux at h
    by_cases hp : isPrefAt pat [] = true
    · rw [if_pos hp] at h
      injection h with h
      rw [← h]
      simpa using hp
    · rw [if_neg hp] at h
      cases h
  | cons c t ih =>
    unfold findSubAux at h
    by_cases hp : isPrefAt pat (c :: t) = true
    · rw [if_pos hp] at h
      injection h with h
      rw [← h]
      simpa using hp
    · rw [if_neg hp] at h
      cases hfind : findSubAux pat t with
      | none =>
        rw [hfind] at h
        cases h
      | some m =>
        rw [hfind] at h
        injection h with h
        rw [← h, List.drop_succ_cons]
        exact ih m hfind

theorem isPrefAt_drop_lt (pat l : List Char) (i : Nat) (hp : pat ≠ [])
    (h : isPrefAt pat (l.drop i) = true) : i < l.length := by
  by_contra hc
  push_neg at hc
  rw [List.drop_eq_nil_of_le hc] at h
  cases pat with
  | nil => exact hp rfl
  | cons a t => simp [isPrefAt] at h

/-- Claim C8: `extract_steps_section` returns exactly the text strictly inside
the first steps span (any later spans in `post` are ignored); and when the
text contains no span at all — no opening-marker occurrence with a
closing-marker occurrence at or past its end — it returns the empty string,
without error. -/
theorem steps_section_first_span :
    (∀ pre mid post : List Char,
      findSubAux stepsOpenTag (pre ++ stepsOpenTag ++ mid ++ stepsCloseTag ++ post) =
        some pre.length →
      findSubAux stepsCloseTag (mid ++ stepsCloseTag ++ post) = some mid.length →
      extract_steps_section
        (String.mk (pre ++ stepsOpenTag ++ mid ++ stepsCloseTag ++ post)) = String.mk mid) ∧
    (∀ content : String,
      (¬ ∃ i j : Nat, isPrefAt stepsOpenTag (content.data.drop i) = true ∧
        isPrefAt stepsCloseTag (content.data.drop j) = true ∧
        i + stepsOpenTag.length ≤ j) →
      extract_steps_section content = "") := by
  constructor
  · intro pre mid post h1 h2
    unfold extract_steps_section
    simp only [h1]
    have hdrop : (pre ++ stepsOpenTag ++ mid ++ stepsCloseTag ++ post).drop
        (pre.length + stepsOpenTag.length) = mid ++ stepsCloseTag ++ post := by
      have : pre ++ stepsOpenTag ++ mid ++ stepsCloseTag ++ post =
          (pre ++ stepsOpenTag) ++ (mid ++ stepsCloseTag ++ post) := by
        simp [List.append_assoc]
      rw [this, ← List.length_append pre stepsOpenTag, List.drop_left]
    rw [hdrop, h2]
    have htake : (mid ++ stepsCloseTag ++ post).take mid.length = mid := by
      rw [List.append_assoc, List.take_left]
    simp [htake]
  · intro content hno
    unfold extract_steps_section
    cases hopen : findSubAux stepsOpenTag content.data with
    | none => rfl
    | some i =>
      have hclose : findSubAux stepsCloseTag
          (content.data.drop (i + stepsOpenTag.length)) = none := by
        cases hc : findSubAux stepsCloseTag
            (content.data.drop (i + stepsOpenTag.length)) with
        | none => rfl
        | some k =>
          exfalso
          apply hno
          refine ⟨i, i + stepsOpenTag.length + k,
            findSubAux_some_isPrefAt _ _ _ hopen, ?_, by omega⟩
          have h2 := findSubAux_some_isPrefAt _ _ _ hc
          rwa [List.drop_drop] at h2
      simp only [hclose]

/-- Witness for C8: a document with two spans yields the first span's content,
and a document whose only closing marker precedes its only opening marker
(hence no span) yields the empty string. -/
theorem steps_section_first_span_witness :
    extract_steps_section (String.mk (("x").data ++ stepsOpenTag ++ ("A").data ++
      stepsCloseTag ++ ("<Steps>B</Steps>").data)) = String.mk (("A").data) ∧
    extract_steps_section ("</Steps>x<Steps>y") = "" := by
  constructor
  · exact steps_section_first_span.1 (("x").data) (("A").data) (("<Steps>B</Steps>").data)
      (by decide) (by decide)
  · apply steps_section_first_span.2
    rintro ⟨i, j, h1, h2, h3⟩
    have hi : i < (("</Steps>x<Steps>y") : String).data.length :=
      isPrefAt_drop_lt _ _ i (by decide) h1
    have hj : j < (("</Steps>x<Steps>y") : String).data.length :=
      isPrefAt_drop_lt _ _ j (by decide) h2
    have hlen : (("</Steps>x<Steps>y") : String).data.length = 17 := by decide
    rw [hlen] at hi hj
    have hbad : ∃ i' < 17, ∃ j' < 17,
        isPrefAt stepsOpenTag ((("</Steps>x<Steps>y") : String).data.drop i') = true ∧
        isPrefAt stepsCloseTag ((("</Steps>x<Steps>y") : String).data.drop j') = true ∧
        i' + stepsOpenTag.length ≤ j' := ⟨i, hi, j, hj, h1, h2, h3⟩
    exact absurd hbad (by decide)

/-! ### Claim C9: executor timeout policy -/

/-- Claim C9: every recognized language except bash gets a timeout (bash gets
none), and when the run times out the returned record carries the partial
stdout and exit code -1 instead of an exception. -/
theorem executor_timeout_policy :
    (∀ lang, dMem LANGUAGE_CONFIG lang = true →
      (subprocessTimeout lang = none ↔ lang = "bash")) ∧
    (∀ (run : Option Nat → RunOutcome) (lang : String) (p : Option String) (exc : String),
      run (subprocessTimeout lang) = RunOutcome.timedOut p exc →
      (execute_code_file run lang).output = p.getD ("") ∧
      (execute_code_file run lang).exit_code = -1) := by
  constructor
  · intro lang _h
    constructor
    · intro h
      by_contra hb
      simp [subprocessTimeout, hb] at h
    · intro h
      simp [subprocessTimeout, h]
  · intro run lang p exc h
    simp [execute_code_file, h]

/-- Witness for C9, at bash (no timeout) and a timed-out python run. -/
theorem executor_timeout_policy_witness :
    (subprocessTimeout ("bash") = none ↔ ("bash" : String) = "bash") ∧
    ((execute_code_file (fun _ => RunOutcome.timedOut (some ("pa")) ("t")) ("python")).output =
        (some ("pa")).getD ("") ∧
      (execute_code_file (fun _ => RunOutcome.timedOut (some ("pa")) ("t")) ("python")).exit_code =
        -1) :=
  ⟨executor_timeout_policy.1 ("bash") (by decide),
   executor_timeout_policy.2 (fun _ => RunOutcome.timedOut (some ("pa")) ("t")) ("python")
     (some ("pa")) ("t") rfl⟩

/-! ### Loop lemmas for the branch builder -/

theorem mem_addUsed (used : List String) (t x : String) :
    x ∈ addUsed used t ↔ x ∈ used ∨ x = t := by
  unfold addUsed
  by_cases h : t ∈ used
  · simp only [if_pos h]
    constructor
    · exact Or.inl
    · rintro (hx | rfl)
      · exact hx
      · exact h
  · simp [h, List.mem_cons, or_comm]

theorem dMem_iff_keys {α : Type} (d : List (String × α)) (k : String) :
    dMem d k = true ↔ k ∈ dKeys d := by
  induction d with
  | nil => simp [dMem, dKeys]
  | cons p t ih =>
    rw [show dKeys (p :: t) = p.1 :: dKeys t from rfl, List.mem_cons]
    by_cases h : p.1 = k
    · simp [dMem, h]
    · have h' : ¬k = p.1 := fun hh => h hh.symm
      simp [dMem, h, h', ih]

/-- `tabsLoop` for a branch that is neither the default branch nor `X`:
the entry at `X` and the used-set membership of `X` are untouched. -/
theorem tabsLoop_other (branch c : String) (tabs nb : List (String × String))
    (used : List String) (X : String) (hb : branch ≠ "") (hX : X ≠ branch) :
    dGet? (tabsLoop branch c tabs nb used).1 X = dGet? nb X ∧
    ((X ∈ (tabsLoop branch c tabs nb used).2) ↔ X ∈ used) := by
  induction tabs generalizing nb used with
  | nil => simp [tabsLoop]
  | cons p rest ih =>
    by_cases hp : p.1 = branch
    · simp only [tabsLoop, if_pos hp]
      rcases ih (dSet nb p.1 (pyStrip (c ++ "\n\n" ++ p.2))) (addUsed used p.1) with ⟨h1, h2⟩
      refine ⟨?_, ?_⟩
      · rw [h1, dGet?_dSet_ne]
        rw [hp]
        exact hX
      · rw [h2, mem_addUsed]
        rw [hp]
        simp [hX]
    · simp only [tabsLoop, if_neg hp, if_neg hb]
      by_cases hm : dMem nb branch = true
      · rw [if_pos hm]
        exact ih nb used
      · rw [if_neg hm]
        rcases ih (dSet nb branch c) used with ⟨h1, h2⟩
        refine ⟨?_, h2⟩
        rw [h1, dGet?_dSet_ne _ _ _ _ hX]

theorem dGet?_cons_ne {α : Type} (p : String × α) (t : List (String × α)) (k : String)
    (h : ¬p.1 = k) : dGet? (p :: t) k = dGet? t k := by
  simp [dGet?, h]

theorem dMem_cons_ne {α : Type} (p : String × α) (t : List (String × α)) (k : String)
    (h : ¬p.1 = k) : dMem (p :: t) k = dMem t k := by
  simp [dMem, h]

theorem nodup_cons_keys {α : Type} (p : String × α) (t : List (String × α))
    (h : (dKeys (p :: t)).Nodup) : p.1 ∉ dKeys t ∧ (dKeys t).Nodup := by
  rw [show dKeys (p :: t) = p.1 :: dKeys t from rfl, List.nodup_cons] at h
  exact h

theorem dMem_false_of_not_keys {α : Type} (d : List (String × α)) (k : String)
    (h : k ∉ dKeys d) : dMem d k = false := by
  cases hm : dMem d k
  · rfl
  · exact absurd ((dMem_iff_keys d k).mp hm) h

/-- `tabsLoop` for the default branch: every tab title is written (match for
`""` itself, spawn otherwise) and marked used; `X ≠ ""` ends up mapped to the
spawned value when `X` is a tab title, else untouched. -/
theorem tabsLoop_default (c : String) (tabs nb : List (String × String)) (used : List String)
    (X : String) (hX : X ≠ "") (hnd : (dKeys tabs).Nodup) :
    dGet? (tabsLoop ("") c tabs nb used).1 X =
      (match dGet? tabs X with
       | some tc => some (pyStrip (c ++ (if tc = "" then "" else "\n\n" ++ tc)))
       | none => dGet? nb X) ∧
    ((X ∈ (tabsLoop ("") c tabs nb used).2) ↔ X ∈ used ∨ dMem tabs X = true) := by
  induction tabs generalizing nb used with
  | nil => simp [tabsLoop, dGet?, dMem]
  | cons p rest ih =>
    rcases nodup_cons_keys p rest hnd with ⟨hpk, hndr⟩
    by_cases hp : p.1 = ""
    · have hpx : ¬p.1 = X := by
        rw [hp]
        exact fun hh => hX hh.symm
      simp only [tabsLoop, if_pos hp]
      rcases ih (dSet nb p.1 (pyStrip (c ++ "\n\n" ++ p.2))) (addUsed used p.1) hndr with
        ⟨h1, h2⟩
      refine ⟨?_, ?_⟩
      · rw [h1, dGet?_cons_ne p rest X hpx]
        cases hr : dGet? rest X with
        | some tc => simp [hr]
        | none => simp [hr, dGet?_dSet_ne nb p.1 X _ (fun hh => hpx hh.symm)]
      · rw [h2, mem_addUsed, dMem_cons_ne p rest X hpx]
        constructor
        · rintro ((hu | hu) | hu)
          · exact Or.inl hu
          · exact absurd hu.symm hpx
          · exact Or.inr hu
        · rintro (hu | hu)
          · exact Or.inl (Or.inl hu)
          · exact Or.inr hu
    · simp only [tabsLoop, if_neg hp, eq_self_iff_true, if_true]
      rcases ih (dSet nb p.1 (pyStrip (c ++ (if p.2 = "" then "" else "\n\n" ++ p.2))))
        (addUsed used p.1) hndr with ⟨h1, h2⟩
      by_cases hpx : p.1 = X
      · have hrest : dGet? rest X = none := by
          apply dMem_false_get
          apply dMem_false_of_not_keys
          rw [← hpx]
          exact hpk
        refine ⟨?_, ?_⟩
        · simp only [h1, hrest]
          have hhead : dGet? (p :: rest) X = some p.2 := by simp [dGet?, hpx]
          simp only [hhead]
          rw [← hpx, dGet?_dSet_self]
        · rw [h2, mem_addUsed]
          have hm : dMem (p :: rest) X = true := by simp [dMem, hpx]
          rw [hm]
          exact iff_of_true (Or.inl (Or.inr hpx.symm)) (by simp)
      · refine ⟨?_, ?_⟩
        · rw [h1, dGet?_cons_ne p rest X hpx]
          cases hr : dGet? rest X with
          | some tc => simp [hr]
          | none => simp [hr, dGet?_dSet_ne nb p.1 X _ (fun hh => hpx hh.symm)]
        · rw [h2, mem_addUsed, dMem_cons_ne p rest X hpx]
          constructor
          · rintro ((hu | hu) | hu)
            · exact Or.inl hu
            · exact absurd hu.symm hpx
            · exact Or.inr hu
          · rintro (hu | hu)
            · exact Or.inl (Or.inl hu)
            · exact Or.inr hu

/-- `tabsLoop` for branch `X ≠ ""` when no tab is named `X`: after a
non-empty tab list, `X` keeps its old entry if present, else is carried in
with `code_so_far`; the used set is unchanged at `X`. -/
theorem tabsLoop_self_none (X c : String) (tabs nb : List (String × String))
    (used : List String) (hX : X ≠ "") (hget : dGet? tabs X = none) :
    dGet? (tabsLoop X c tabs nb used).1 X =
      (if tabs.isEmpty then dGet? nb X
       else if dMem nb X then dGet? nb X else some c) ∧
    ((X ∈ (tabsLoop X c tabs nb used).2) ↔ X ∈ used) := by
  induction tabs generalizing nb used with
  | nil => simp [tabsLoop]
  | cons p rest ih =>
    have hpx : ¬p.1 = X := by
      intro hh
      simp [dGet?, hh] at hget
    have hrest : dGet? rest X = none := by rwa [dGet?_cons_ne p rest X hpx] at hget
    simp only [tabsLoop, if_neg hpx, if_neg hX]
    by_cases hm : dMem nb X = true
    · rw [if_pos hm]
      rcases ih nb used hrest with ⟨h1, h2⟩
      refine ⟨?_, h2⟩
      rw [h1]
      by_cases he : rest.isEmpty <;> simp [he, hm]
    · rw [if_neg hm]
      rcases ih (dSet nb X c) used hrest with ⟨h1, h2⟩
      refine ⟨?_, h2⟩
      rw [h1]
      have hms : dMem (dSet nb X c) X = true := by simp [dMem_dSet]
      by_cases he : rest.isEmpty <;>
        simp [he, hm, hms, dGet?_dSet_self]

/-- `tabsLoop` for branch `X ≠ ""` when some tab is named `X`: the branch is
matched, receiving its own accumulation plus the tab's code, and `X` is used. -/
theorem tabsLoop_self_some (X c tc : String) (tabs nb : List (String × String))
    (used : List String) (hX : X ≠ "") (hnd : (dKeys tabs).Nodup)
    (hget : dGet? tabs X = some tc) :
    dGet? (tabsLoop X c tabs nb used).1 X = some (pyStrip (c ++ "\n\n" ++ tc)) ∧
    X ∈ (tabsLoop X c tabs nb used).2 := by
  induction tabs generalizing nb used with
  | nil => simp [dGet?] at hget
  | cons p rest ih =>
    rcases nodup_cons_keys p rest hnd with ⟨hpk, hndr⟩
    by_cases hpx : p.1 = X
    · have htc : p.2 = tc := by
        simp [dGet?, hpx] at hget
        exact hget
      have hrest : dGet? rest X = none := by
        apply dMem_false_get
        apply dMem_false_of_not_keys
        rw [← hpx]
        exact hpk
      simp only [tabsLoop, if_pos hpx]
      rcases tabsLoop_self_none X c rest
        (dSet nb p.1 (pyStrip (c ++ "\n\n" ++ p.2))) (addUsed used p.1) hX hrest with ⟨h1, h2⟩
      refine ⟨?_, ?_⟩
      · rw [h1, ← htc]
        have hget' : dGet? (dSet nb p.1 (pyStrip (c ++ "\n\n" ++ p.2))) X =
            some (pyStrip (c ++ "\n\n" ++ p.2)) := by
          rw [← hpx]
          exact dGet?_dSet_self nb p.1 _
        have hmem : dMem (dSet nb p.1 (pyStrip (c ++ "\n\n" ++ p.2))) X = true := by
          rw [dMem_eq_isSome_dGet?, hget']
          rfl
        by_cases he : rest.isEmpty <;> simp [he, hmem, hget']
      · rw [h2, mem_addUsed]
        exact Or.inr hpx.symm
    · have hrest : dGet? rest X = some tc := by rwa [dGet?_cons_ne p rest X hpx] at hget
      simp only [tabsLoop, if_neg hpx, if_neg hX]
      by_cases hm : dMem nb X = true
      · rw [if_pos hm]
        exact ih nb used hndr hrest
      · rw [if_neg hm]
        exact ih (dSet nb X c) used hndr hrest

/-- `branchesLoop` over branches that are neither the default nor `X`
touches neither the entry at `X` nor the used-set membership of `X`. -/
theorem branchesLoop_other (tabs cur nb : List (String × String)) (used : List String)
    (X : String) (h : ∀ p ∈ cur, p.1 ≠ "" ∧ p.1 ≠ X) :
    dGet? (branchesLoop tabs cur nb used).1 X = dGet? nb X ∧
    ((X ∈ (branchesLoop tabs cur nb used).2) ↔ X ∈ used) := by
  induction cur generalizing nb used with
  | nil => simp [branchesLoop]
  | cons p rest ih =>
    rcases h p (List.mem_cons_self p rest) with ⟨hb, hbx⟩
    have hXb : X ≠ p.1 := fun hh => hbx hh.symm
    rcases tabsLoop_other p.1 p.2 tabs nb used X hb hXb with ⟨h1, h2⟩
    rcases ih (tabsLoop p.1 p.2 tabs nb used).1 (tabsLoop p.1 p.2 tabs nb used).2
      (fun q hq => h q (List.mem_cons_of_mem p hq)) with ⟨h3, h4⟩
    exact ⟨by simp only [branchesLoop]; rw [h3, h1],
           by simp only [branchesLoop]; rw [h4, h2]⟩

/-- `branchesLoop` when branch `X ≠ ""` is among the branches, none of which
is the default: `X` is matched against the tabs exactly once. -/
theorem branchesLoop_self (tabs cur nb : List (String × String)) (used : List String)
    (X cX : String) (hX : X ≠ "") (hall : ∀ p ∈ cur, p.1 ≠ "")
    (hnd : (dKeys cur).Nodup) (hndt : (dKeys tabs).Nodup) (htabs : ¬tabs.isEmpty = true)
    (hget : dGet? cur X = some cX) :
    dGet? (branchesLoop tabs cur nb used).1 X =
      (match dGet? tabs X with
       | some tc => some (pyStrip (cX ++ "\n\n" ++ tc))
       | none => if dMem nb X then dGet? nb X else some cX) ∧
    ((X ∈ (branchesLoop tabs cur nb used).2) ↔ (X ∈ used ∨ dMem tabs X = true)) := by
  induction cur generalizing nb used with
  | nil => simp [dGet?] at hget
  | cons p rest ih =>
    rcases nodup_cons_keys p rest hnd with ⟨hpk, hndr⟩
    by_cases hpx : p.1 = X
    · have hcx : p.2 = cX := by
        simp [dGet?, hpx] at hget
        exact hget
      have hrest : ∀ q ∈ rest, q.1 ≠ "" ∧ q.1 ≠ X := by
        intro q hq
        refine ⟨hall q (List.mem_cons_of_mem p hq), ?_⟩
        intro hc
        exact hpk (hpx ▸ hc ▸ (dMem_iff_keys rest q.1).mp
          ((dMem_iff_keys rest q.1).mpr (List.mem_map_of_mem Prod.fst hq)))
      cases hvt : dGet? tabs X with
      | some tc =>
        have hm := tabsLoop_self_some X p.2 tc tabs nb used hX hndt hvt
        rcases hm with ⟨h1, h2⟩
        rcases branchesLoop_other tabs rest (tabsLoop p.1 p.2 tabs nb used).1
          (tabsLoop p.1 p.2 tabs nb used).2 X hrest with ⟨h3, h4⟩
        constructor
        · simp only [branchesLoop]
          rw [h3, hpx, h1, hcx]
        · simp only [branchesLoop]
          rw [h4, hpx]
          refine iff_of_true h2 (Or.inr ?_)
          rw [dMem_eq_isSome_dGet?, hvt]
          rfl
      | none =>
        have hm := tabsLoop_self_none X p.2 tabs nb used hX hvt
        rcases hm with ⟨h1, h2⟩
        rcases branchesLoop_other tabs rest (tabsLoop p.1 p.2 tabs nb used).1
          (tabsLoop p.1 p.2 tabs nb used).2 X hrest with ⟨h3, h4⟩
        have htabs' : tabs.isEmpty = false := by
          cases he : tabs.isEmpty
          · rfl
          · exact absurd he htabs
        constructor
        · simp only [branchesLoop]
          rw [h3, hpx, h1, htabs', hcx]
          simp
        · simp only [branchesLoop]
          rw [h4, hpx, h2]
          have : dMem tabs X = false := by
            rw [dMem_eq_isSome_dGet?, hvt]
            rfl
          simp [this]
    · have hrest : dGet? rest X = some cX := by rwa [dGet?_cons_ne p rest X hpx] at hget
      have hXb : X ≠ p.1 := fun hh => hpx hh.symm
      rcases tabsLoop_other p.1 p.2 tabs nb used X (hall p (List.mem_cons_self p rest)) hXb
        with ⟨h1, h2⟩
      rcases ih (tabsLoop p.1 p.2 tabs nb used).1 (tabsLoop p.1 p.2 tabs nb used).2
        (fun q hq => hall q (List.mem_cons_of_mem p hq)) hndr hrest with ⟨h3, h4⟩
      constructor
      · simp only [branchesLoop]
        rw [h3]
        have hdm : dMem (tabsLoop p.1 p.2 tabs nb used).1 X = dMem nb X := by
          rw [dMem_eq_isSome_dGet?, h1, ← dMem_eq_isSome_dGet?]
        rw [hdm, h1]
      · simp only [branchesLoop]
        rw [h4, h2]

/-- `unusedLoop` does not touch an entry whose key is not an unused tab. -/
theorem unusedLoop_preserve (cc : String) (tabs : List (String × String))
    (used : List String) (nb : List (String × String)) (X : String)
    (h : dMem tabs X = false ∨ X ∈ used) :
    dGet? (unusedLoop cc tabs used nb) X = dGet? nb X := by
  induction tabs generalizing nb with
  | nil => rfl
  | cons p rest ih =>
    have hpx : ¬p.1 = X ∨ X ∈ used := by
      rcases h with h | h
      · left
        intro hc
        simp [dMem, hc] at h
      · exact Or.inr h
    have htail : dMem rest X = false ∨ X ∈ used := by
      rcases h with h | h
      · by_cases hc : p.1 = X
        · simp [dMem, hc] at h
        · left
          rwa [dMem_cons_ne p rest X hc] at h
      · exact Or.inr h
    simp only [unusedLoop]
    by_cases hu : p.1 ∈ used
    · rw [if_pos hu]
      exact ih nb htail
    · rw [if_neg hu]
      have hne : ¬p.1 = X := by
        rcases hpx with h' | h'
        · exact h'
        · exact fun hc => hu (hc ▸ h')
      rw [ih _ htail, dGet?_dSet_ne _ _ _ _ (fun hh => hne hh.symm)]

/-- `unusedLoop` creates a fresh entry for an unused tab `X`, seeded with the
step's common code plus the tab's own code. -/
theorem unusedLoop_adds (cc : String) (tabs : List (String × String))
    (used : List String) (nb : List (String × String)) (X tc : String)
    (hnd : (dKeys tabs).Nodup) (hget : dGet? tabs X = some tc) (hnu : X ∉ used) :
    dGet? (unusedLoop cc tabs used nb) X =
      some (if cc = "" then tc else pyStrip (cc ++ "\n\n" ++ tc)) := by
  induction tabs generalizing nb with
  | nil => simp [dGet?] at hget
  | cons p rest ih =>
    rcases nodup_cons_keys p rest hnd with ⟨hpk, hndr⟩
    by_cases hpx : p.1 = X
    · have htc : p.2 = tc := by
        simp [dGet?, hpx] at hget
        exact hget
      have hu : ¬p.1 ∈ used := by
        rw [hpx]
        exact hnu
      have hrest : dMem rest X = false := by
        apply dMem_false_of_not_keys
        rw [← hpx]
        exact hpk
      simp only [unusedLoop]
      rw [if_neg hu, unusedLoop_preserve cc rest used _ X (Or.inl hrest), ← hpx, ← htc,
        dGet?_dSet_self]
    · have hrest : dGet? rest X = some tc := by rwa [dGet?_cons_ne p rest X hpx] at hget
      simp only [unusedLoop]
      by_cases hu : p.1 ∈ used
      · rw [if_pos hu]
        exact ih _ hndr hrest
      · rw [if_neg hu]
        exact ih _ hndr hrest

theorem unusedLoop_mem_mono (cc : String) (tabs : List (String × String))
    (used : List String) (nb : List (String × String)) (k : String)
    (h : dMem nb k = true) : dMem (unusedLoop cc tabs used nb) k = true := by
  induction tabs generalizing nb with
  | nil => exact h
  | cons p rest ih =>
    simp only [unusedLoop]
    by_cases hu : p.1 ∈ used
    · rw [if_pos hu]
      exact ih nb h
    · rw [if_neg hu]
      exact ih _ (dMem_dSet_of nb p.1 k _ h)

theorem unusedLoop_mem_sub (cc : String) (tabs : List (String × String))
    (used : List String) (nb : List (String × String)) (k : String)
    (h : dMem (unusedLoop cc tabs used nb) k = true) :
    dMem nb k = true ∨ dMem tabs k = true := by
  induction tabs generalizing nb with
  | nil => exact Or.inl h
  | cons p rest ih =>
    simp only [unusedLoop] at h
    by_cases hu : p.1 ∈ used
    · rw [if_pos hu] at h
      rcases ih nb h with h' | h'
      · exact Or.inl h'
      · right
        by_cases hc : p.1 = k <;> simp [dMem, hc, h']
    · rw [if_neg hu] at h
      rcases ih _ h with h' | h'
      · rw [dMem_dSet] at h'
        rcases Bool.or_eq_true_iff.mp h' with h'' | h''
        · exact Or.inl h''
        · right
          have : k = p.1 := of_decide_eq_true h''
          simp [dMem, this.symm]
      · right
        by_cases hc : p.1 = k <;> simp [dMem, hc, h']

/-! ### Membership of the default key through one step -/

theorem dMem_cons {α : Type} (p : String × α) (t : List (String × α)) (k : String) :
    dMem (p :: t) k = (decide (p.1 = k) || dMem t k) := by
  by_cases h : p.1 = k <;> simp [dMem, h]

theorem tabsLoop_mem_default (b c : String) (tabs nb : List (String × String))
    (used : List String) :
    dMem (tabsLoop b c tabs nb used).1 ("") =
      (dMem nb ("") || (decide (b = "") && dMem tabs (""))) := by
  induction tabs generalizing nb used with
  | nil => simp [tabsLoop, dMem]
  | cons p rest ih =>
    by_cases hp : p.1 = b
    · simp only [tabsLoop, if_pos hp]
      rw [ih, dMem_dSet, dMem_cons]
      by_cases hb : b = ""
      · have hpe : decide (("" : String) = p.1) = true := by simp [hp, hb]
        have hpe' : decide (p.1 = ("" : String)) = true := by simp [hp, hb]
        simp [hpe, hpe', hb]
      · have hpe : decide (("" : String) = p.1) = false := by
          simp [hp]
          exact fun hh => hb hh.symm
        simp [hpe, hb]
    · by_cases hb : b = ""
      · subst hb
        simp only [tabsLoop, if_neg hp, eq_self_iff_true, if_true]
        rw [ih, dMem_dSet, dMem_cons]
        have hpne : p.1 ≠ "" := hp
        have hpe : decide (("" : String) = p.1) = false := by
          simp
          exact fun hh => hpne hh.symm
        have hpe' : decide (p.1 = ("" : String)) = false := by simp [hpne]
        simp [hpe, hpe']
      · simp only [tabsLoop, if_neg hp, if_neg hb]
        have hbe : decide (b = ("" : String)) = false := by simp [hb]
        by_cases hm : dMem nb b = true
        · rw [if_pos hm, ih]
          simp [hbe]
        · rw [if_neg hm, ih, dMem_dSet]
          have : decide (("" : String) = b) = false := by
            simp
            exact fun hh => hb hh.symm
          simp [hbe, this]

theorem branchesLoop_mem_default (tabs cur nb : List (String × String))
    (used : List String) :
    dMem (branchesLoop tabs cur nb used).1 ("") =
      (dMem nb ("") || (dMem cur ("") && dMem tabs (""))) := by
  induction cur generalizing nb used with
  | nil => simp [branchesLoop, dMem]
  | cons p rest ih =>
    simp only [branchesLoop]
    rw [ih, tabsLoop_mem_default, dMem_cons]
    cases dMem nb ("") <;> cases dMem tabs ("") <;> cases dMem rest ("") <;>
      cases hd : decide (p.1 = ("" : String)) <;> simp

/-! ### The used set is always a subset of the keys written -/

theorem tabsLoop_used_sub (b c : String) (tabs nb : List (String × String))
    (used : List String) (h : ∀ u ∈ used, dMem nb u = true) :
    ∀ u ∈ (tabsLoop b c tabs nb used).2, dMem (tabsLoop b c tabs nb used).1 u = true := by
  induction tabs generalizing nb used with
  | nil => exact h
  | cons p rest ih =>
    by_cases hp : p.1 = b
    · simp only [tabsLoop, if_pos hp]
      apply ih
      intro u hu
      rcases (mem_addUsed used p.1 u).mp hu with hu | rfl
      · exact dMem_dSet_of _ _ _ _ (h u hu)
      · simp [dMem_dSet]
    · by_cases hb : b = ""
      · subst hb
        simp only [tabsLoop, if_neg hp, eq_self_iff_true, if_true]
        apply ih
        intro u hu
        rcases (mem_addUsed used p.1 u).mp hu with hu | rfl
        · exact dMem_dSet_of _ _ _ _ (h u hu)
        · simp [dMem_dSet]
      · simp only [tabsLoop, if_neg hp, if_neg hb]
        by_cases hm : dMem nb b = true
        · rw [if_pos hm]
          exact ih nb used h
        · rw [if_neg hm]
          apply ih
          intro u hu
          exact dMem_dSet_of _ _ _ _ (h u hu)

theorem branchesLoop_used_sub (tabs cur nb : List (String × String))
    (used : List String) (h : ∀ u ∈ used, dMem nb u = true) :
    ∀ u ∈ (branchesLoop tabs cur nb used).2,
      dMem (branchesLoop tabs cur nb used).1 u = true := by
  induction cur generalizing nb used with
  | nil => exact h
  | cons p rest ih =>
    simp only [branchesLoop]
    exact ih _ _ (tabsLoop_used_sub p.1 p.2 tabs nb used h)

/-! ### `appendCommonAll` lemmas -/

theorem dGet?_appendCommonAll (cur : List (String × String)) (cc X : String) :
    dGet? (appendCommonAll cur cc) X =
      if cc = "" then dGet? cur X
      else (dGet? cur X).map (fun v => pyStrip (v ++ "\n\n" ++ cc)) := by
  unfold appendCommonAll
  by_cases h : cc = ""
  · simp [h]
  · rw [if_neg h, if_neg h]
    exact dGet?_map_value cur (fun v => pyStrip (v ++ "\n\n" ++ cc)) X

theorem dMem_appendCommonAll (cur : List (String × String)) (cc X : String) :
    dMem (appendCommonAll cur cc) X = dMem cur X := by
  unfold appendCommonAll
  by_cases h : cc = ""
  · simp [h]
  · rw [if_neg h]
    exact dMem_map_value cur (fun v => pyStrip (v ++ "\n\n" ++ cc)) X

theorem dKeys_appendCommonAll (cur : List (String × String)) (cc : String) :
    dKeys (appendCommonAll cur cc) = dKeys cur := by
  unfold appendCommonAll
  by_cases h : cc = ""
  · simp [h]
  · simp only [if_neg h, dKeys, List.map_map]
    rfl

theorem appendCommonAll_cons_default (d : String) (rest : List (String × String))
    (cc : String) :
    appendCommonAll (((""), d) :: rest) cc =
      (("",
        if cc = "" then d else pyStrip (d ++ "\n\n" ++ cc))) :: appendCommonAll rest cc := by
  unfold appendCommonAll
  by_cases h : cc = "" <;> simp [h]

/-! ### Nodup keys preservation -/

theorem tabsLoop_nodup (b c : String) (tabs nb : List (String × String))
    (used : List String) (h : (dKeys nb).Nodup) :
    (dKeys (tabsLoop b c tabs nb used).1).Nodup := by
  induction tabs generalizing nb used with
  | nil => exact h
  | cons p rest ih =>
    by_cases hp : p.1 = b
    · simp only [tabsLoop, if_pos hp]
      exact ih _ _ (dSet_nodup _ _ _ h)
    · by_cases hb : b = ""
      · subst hb
        simp only [tabsLoop, if_neg hp, eq_self_iff_true, if_true]
        exact ih _ _ (dSet_nodup _ _ _ h)
      · simp only [tabsLoop, if_neg hp, if_neg hb]
        by_cases hm : dMem nb b = true
        · rw [if_pos hm]
          exact ih nb used h
        · rw [if_neg hm]
          exact ih _ _ (dSet_nodup _ _ _ h)

theorem branchesLoop_nodup (tabs cur nb : List (String × String)) (used : List String)
    (h : (dKeys nb).Nodup) : (dKeys (branchesLoop tabs cur nb used).1).Nodup := by
  induction cur generalizing nb used with
  | nil => exact h
  | cons p rest ih =>
    simp only [branchesLoop]
    exact ih _ _ (tabsLoop_nodup p.1 p.2 tabs nb used h)

theorem unusedLoop_nodup (cc : String) (tabs : List (String × String))
    (used : List String) (nb : List (String × String)) (h : (dKeys nb).Nodup) :
    (dKeys (unusedLoop cc tabs used nb)).Nodup := by
  induction tabs generalizing nb with
  | nil => exact h
  | cons p rest ih =>
    simp only [unusedLoop]
    by_cases hu : p.1 ∈ used
    · rw [if_pos hu]
      exact ih nb h
    · rw [if_neg hu]
      exact ih _ (dSet_nodup _ _ _ h)

/-! ### Non-emptiness -/

theorem dSet_ne_nil {α : Type} (d : List (String × α)) (k : String) (v : α) :
    dSet d k v ≠ [] := by
  cases d with
  | nil => simp [dSet]
  | cons p t =>
    by_cases h : p.1 = k <;> simp [dSet, h]

theorem tabsLoop_ne_pre (b c : String) (tabs nb : List (String × String))
    (used : List String) (h : nb ≠ []) : (tabsLoop b c tabs nb used).1 ≠ [] := by
  induction tabs generalizing nb used with
  | nil => exact h
  | cons p rest ih =>
    by_cases hp : p.1 = b
    · simp only [tabsLoop, if_pos hp]
      exact ih _ _ (dSet_ne_nil _ _ _)
    · by_cases hb : b = ""
      · subst hb
        simp only [tabsLoop, if_neg hp, eq_self_iff_true, if_true]
        exact ih _ _ (dSet_ne_nil _ _ _)
      · simp only [tabsLoop, if_neg hp, if_neg hb]
        by_cases hm : dMem nb b = true
        · rw [if_pos hm]
          exact ih nb used h
        · rw [if_neg hm]
          exact ih _ _ (dSet_ne_nil _ _ _)

theorem tabsLoop_ne_tabs (b c : String) (p : String × String)
    (rest nb : List (String × String)) (used : List String) :
    (tabsLoop b c (p :: rest) nb used).1 ≠ [] := by
  by_cases hp : p.1 = b
  · simp only [tabsLoop, if_pos hp]
    exact tabsLoop_ne_pre _ _ _ _ _ (dSet_ne_nil _ _ _)
  · by_cases hb : b = ""
    · subst hb
      simp only [tabsLoop, if_neg hp, eq_self_iff_true, if_true]
      exact tabsLoop_ne_pre _ _ _ _ _ (dSet_ne_nil _ _ _)
    · simp only [tabsLoop, if_neg hp, if_neg hb]
      by_cases hm : dMem nb b = true
      · rw [if_pos hm]
        apply tabsLoop_ne_pre
        intro hc
        rw [hc] at hm
        simp [dMem] at hm
      · rw [if_neg hm]
        exact tabsLoop_ne_pre _ _ _ _ _ (dSet_ne_nil _ _ _)

theorem branchesLoop_ne_pre (tabs cur nb : List (String × String)) (used : List String)
    (h : nb ≠ []) : (branchesLoop tabs cur nb used).1 ≠ [] := by
  induction cur generalizing nb used with
  | nil => exact h
  | cons p rest ih =>
    simp only [branchesLoop]
    exact ih _ _ (tabsLoop_ne_pre p.1 p.2 tabs nb used h)

theorem unusedLoop_ne_pre (cc : String) (tabs : List (String × String))
    (used : List String) (nb : List (String × String)) (h : nb ≠ []) :
    unusedLoop cc tabs used nb ≠ [] := by
  induction tabs generalizing nb with
  | nil => exact h
  | cons p rest ih =>
    simp only [unusedLoop]
    by_cases hu : p.1 ∈ used
    · rw [if_pos hu]
      exact ih nb h
    · rw [if_neg hu]
      exact ih _ (dSet_ne_nil _ _ _)

/-! ### Step-level lemmas -/

theorem validTabsAux_nodup (lang : String)
    (tabs : List (String × List (String × List String))) (acc : List (String × String))
    (h : (dKeys acc).Nodup) : (dKeys (validTabsAux lang tabs acc)).Nodup := by
  induction tabs generalizing acc with
  | nil => exact h
  | cons p rest ih =>
    simp only [validTabsAux]
    cases dGet? p.2 lang with
    | none => exact ih acc h
    | some snippets =>
      show (dKeys (if snippets.isEmpty = true then validTabsAux lang rest acc
        else validTabsAux lang rest (dSet acc p.1 (pyStrip (joinBlank snippets))))).Nodup
      by_cases he : snippets.isEmpty = true
      · rw [if_pos he]
        exact ih acc h
      · rw [if_neg he]
        exact ih _ (dSet_nodup _ _ _ h)

theorem validTabsOf_nodup (s : MdxStep) (lang : String) :
    (dKeys (validTabsOf s lang)).Nodup :=
  validTabsAux_nodup lang s.tabs [] (by simp [dKeys])

/-- Membership of the default label after one step: unchanged by a step with
no valid variants; equal to membership of `""` among the step's valid variant
names otherwise.  In particular the default branch is removed by any step
whose valid variants all have non-empty names. -/
theorem processStep_mem_default (lang : String) (cur : List (String × String))
    (s : MdxStep) :
    dMem (processStep lang cur s) ("") =
      (if (validTabsOf s lang).isEmpty then dMem cur ("")
       else dMem (validTabsOf s lang) ("")) := by
  by_cases hvt : (validTabsOf s lang).isEmpty = true
  · simp only [processStep, if_pos hvt]
    rw [dMem_appendCommonAll]
  · simp only [processStep, if_neg hvt]
    by_cases hm : dMem (validTabsOf s lang) ("") = true
    · rw [hm]
      by_cases hu : ("") ∈ (branchesLoop (validTabsOf s lang)
          (appendCommonAll cur (stepCommon s lang)) [] []).2
      · have hnb := branchesLoop_used_sub (validTabsOf s lang)
          (appendCommonAll cur (stepCommon s lang)) [] [] (by simp) ("") hu
        exact unusedLoop_mem_mono _ _ _ _ _ hnb
      · rcases Option.isSome_iff_exists.mp (by
          rw [← dMem_eq_isSome_dGet?]
          exact hm) with ⟨tc, htc⟩
        have := unusedLoop_adds (stepCommon s lang) (validTabsOf s lang)
          (branchesLoop (validTabsOf s lang) (appendCommonAll cur (stepCommon s lang)) [] []).2
          (branchesLoop (validTabsOf s lang) (appendCommonAll cur (stepCommon s lang)) [] []).1
          ("") tc (validTabsOf_nodup s lang) htc hu
        rw [dMem_eq_isSome_dGet?, this]
        rfl
    · have hm' : dMem (validTabsOf s lang) ("") = false := by
        cases hx : dMem (validTabsOf s lang) ("")
        · rfl
        · exact absurd hx hm
      rw [hm']
      cases hfin : dMem (unusedLoop (stepCommon s lang) (validTabsOf s lang)
          (branchesLoop (validTabsOf s lang) (appendCommonAll cur (stepCommon s lang)) [] []).2
          (branchesLoop (validTabsOf s lang)
            (appendCommonAll cur (stepCommon s lang)) [] []).1) ("") with
      | false => rfl
      | true =>
        exfalso
        rcases unusedLoop_mem_sub _ _ _ _ _ hfin with hsub | hsub
        · rw [branchesLoop_mem_default, dMem_appendCommonAll] at hsub
          simp [dMem, hm'] at hsub
        · rw [hm'] at hsub
          exact Bool.false_ne_true hsub

theorem processStep_nodup (lang : String) (cur : List (String × String)) (s : MdxStep)
    (h : (dKeys cur).Nodup) : (dKeys (processStep lang cur s)).Nodup := by
  by_cases hvt : (validTabsOf s lang).isEmpty = true
  · simp only [processStep, if_pos hvt]
    rw [dKeys_appendCommonAll]
    exact h
  · simp only [processStep, if_neg hvt]
    exact unusedLoop_nodup _ _ _ _ (branchesLoop_nodup _ _ _ _ (by simp [dKeys]))

theorem appendCommonAll_ne (cur : List (String × String)) (cc : String)
    (h : cur ≠ []) : appendCommonAll cur cc ≠ [] := by
  unfold appendCommonAll
  by_cases hc : cc = "" <;> simp [hc, h]

theorem processStep_ne (lang : String) (cur : List (String × String)) (s : MdxStep)
    (h : cur ≠ []) : processStep lang cur s ≠ [] := by
  by_cases hvt : (validTabsOf s lang).isEmpty = true
  · simp only [processStep, if_pos hvt]
    exact appendCommonAll_ne cur _ h
  · simp only [processStep, if_neg hvt]
    apply unusedLoop_ne_pre
    cases hvs : validTabsOf s lang with
    | nil =>
      rw [hvs] at hvt
      simp at hvt
    | cons q vrest =>
      cases hcur' : appendCommonAll cur (stepCommon s lang) with
      | nil => exact absurd hcur' (appendCommonAll_ne cur _ h)
      | cons p rest =>
        simp only [branchesLoop]
        exact branchesLoop_ne_pre _ _ _ _ (tabsLoop_ne_tabs p.1 p.2 q vrest [] [])

theorem processStep_default_head (lang : String) (cur : List (String × String))
    (s : MdxStep) (hvt0 : dMem (validTabsOf s lang) ("") = false)
    (hh : dMem cur ("") = true → ∃ d rest, cur = ((""), d) :: rest) :
    dMem (processStep lang cur s) ("") = true →
      ∃ d rest, processStep lang cur s = ((""), d) :: rest := by
  intro hm
  rw [processStep_mem_default] at hm
  by_cases hvt : (validTabsOf s lang).isEmpty = true
  · rw [if_pos hvt] at hm
    rcases hh hm with ⟨d, rest, hcur⟩
    simp only [processStep, if_pos hvt, hcur, appendCommonAll_cons_default]
    exact ⟨_, _, rfl⟩
  · rw [if_neg hvt, hvt0] at hm
    exact absurd hm (Bool.false_ne_true)

/-! ### Invariants of `buildCurrent` -/

theorem foldl_processStep_nodup (lang : String) (steps : List MdxStep) :
    ∀ cur : List (String × String), (dKeys cur).Nodup →
      (dKeys (steps.foldl (processStep lang) cur)).Nodup := by
  induction steps with
  | nil => exact fun cur h => h
  | cons s rest ih =>
    intro cur h
    rw [List.foldl_cons]
    exact ih _ (processStep_nodup lang cur s h)

theorem buildCurrent_nodup (steps : List MdxStep) (lang : String) :
    (dKeys (buildCurrent steps lang)).Nodup :=
  foldl_processStep_nodup lang steps _ (by simp [dKeys])

theorem foldl_processStep_ne (lang : String) (steps : List MdxStep) :
    ∀ cur : List (String × String), cur ≠ [] →
      steps.foldl (processStep lang) cur ≠ [] := by
  induction steps with
  | nil => exact fun cur h => h
  | cons s rest ih =>
    intro cur h
    rw [List.foldl_cons]
    exact ih _ (processStep_ne lang cur s h)

theorem buildCurrent_ne (steps : List MdxStep) (lang : String) :
    buildCurrent steps lang ≠ [] :=
  foldl_processStep_ne lang steps _ (by simp)

theorem foldl_processStep_default_head (lang : String) (steps : List MdxStep)
    (hall : ∀ st ∈ steps, dMem (validTabsOf st lang) ("") = false) :
    ∀ cur : List (String × String),
      (dMem cur ("") = true → ∃ d rest, cur = ((""), d) :: rest) →
      dMem (steps.foldl (processStep lang) cur) ("") = true →
        ∃ d rest, steps.foldl (processStep lang) cur = ((""), d) :: rest := by
  induction steps with
  | nil => exact fun cur h => h
  | cons s rest ih =>
    intro cur h
    rw [List.foldl_cons]
    exact ih (fun st hst => hall st (List.mem_cons_of_mem s hst)) _
      (processStep_default_head lang cur s (hall s (List.mem_cons_self s rest)) h)

theorem buildCurrent_default_head (steps : List MdxStep) (lang : String)
    (hall : ∀ st ∈ steps, dMem (validTabsOf st lang) ("") = false)
    (hm : dMem (buildCurrent steps lang) ("") = true) :
    ∃ d rest, buildCurrent steps lang = ((""), d) :: rest :=
  foldl_processStep_default_head lang steps hall _
    (fun _ => ⟨"", [], rfl⟩) hm

/-! ### Claim C10: the result mapping is never empty -/

/-- Claim C10: for every step sequence (including the empty one) and every
language, `build_branches_for_language` returns a non-empty mapping. -/
theorem build_branches_nonempty (steps : List MdxStep) (lang : String) :
    (build_branches_for_language steps lang).isEmpty = false := by
  have h := buildCurrent_ne steps lang
  unfold build_branches_for_language
  cases hc : buildCurrent steps lang with
  | nil => exact absurd hc h
  | cons p t => simp

/-! ### Claim C2 (amended): exact characterization of the default label -/

/-- Whether the default branch survives: it does initially, is kept by steps
with no valid variants, and after a step with valid variants it is present
exactly when that step has a valid variant named `""`. -/
def defaultSurvives (steps : List MdxStep) (lang : String) : Bool :=
  steps.foldl (fun b st =>
    if (validTabsOf st lang).isEmpty then b else dMem (validTabsOf st lang) ("")) true

/-- Claim C2 (amended): the default label `""` is a key of the final mapping
iff no step has valid variants, or the last step with valid variants has one
named `""` (which the step parser never produces).  In particular the default
branch is removed at a step with valid variants with non-empty names. -/
theorem default_branch_survival (steps : List MdxStep) (lang : String) :
    dMem (build_branches_for_language steps lang) ("") = defaultSurvives steps lang := by
  have hmap : dMem (build_branches_for_language steps lang) ("") =
      dMem (buildCurrent steps lang) ("") :=
    dMem_map_value _ (fun v => pyStrip v) _
  rw [hmap]
  suffices h : ∀ (st : List MdxStep) (cur : List (String × String)) (b : Bool),
      dMem cur ("") = b →
      dMem (st.foldl (processStep lang) cur) ("") =
        st.foldl (fun b st =>
          if (validTabsOf st lang).isEmpty then b
          else dMem (validTabsOf st lang) ("")) b by
    exact h steps [(("" : String), ("" : String))] true (by simp [dMem])
  intro st
  induction st with
  | nil => exact fun cur b hb => hb
  | cons s rest ih =>
    intro cur b hb
    rw [List.foldl_cons, List.foldl_cons]
    apply ih
    rw [processStep_mem_default, hb]

theorem dMem_of_mem {α : Type} (d : List (String × α)) (q : String × α) (hq : q ∈ d) :
    dMem d q.1 = true := by
  induction d with
  | nil => simp at hq
  | cons p t ih =>
    rcases List.mem_cons.mp hq with rfl | hq
    · simp [dMem]
    · by_cases hp : p.1 = q.1 <;> simp [dMem, hp, ih hq]

/-! ### The update a persisting branch receives in one step -/

/-- What one step does to the code of a persisting branch `X`: append the
step's common code (when non-empty), then append the variant code exactly
when the step has a valid variant whose name equals `X`. -/
def stepUpdate (cX : String) (s : MdxStep) (lang X : String) : String :=
  let cc := stepCommon s lang
  let c1 := if cc = "" then cX else pyStrip (cX ++ "\n\n" ++ cc)
  match dGet? (validTabsOf s lang) X with
  | some tc => pyStrip (c1 ++ "\n\n" ++ tc)
  | none => c1

theorem processStep_lookup (lang : String) (cur : List (String × String)) (s : MdxStep)
    (X cX : String) (hX : X ≠ "")
    (hnd : (dKeys cur).Nodup)
    (hh : dMem cur ("") = true → ∃ d rest, cur = ((""), d) :: rest)
    (hget : dGet? cur X = some cX) :
    dGet? (processStep lang cur s) X = some (stepUpdate cX s lang X) := by
  have hXne : ¬(("") : String) = X := fun hh' => hX hh'.symm
  have hget' : dGet? (appendCommonAll cur (stepCommon s lang)) X =
      some (if stepCommon s lang = "" then cX
            else pyStrip (cX ++ "\n\n" ++ stepCommon s lang)) := by
    rw [dGet?_appendCommonAll]
    by_cases hc : stepCommon s lang = "" <;> simp [hc, hget]
  by_cases hvt : (validTabsOf s lang).isEmpty = true
  · have hvnil : validTabsOf s lang = [] := by
      cases hv : validTabsOf s lang
      · rfl
      · rw [hv] at hvt
        simp at hvt
    simp only [processStep, if_pos hvt]
    rw [hget']
    unfold stepUpdate
    rw [hvnil]
    rfl
  · simp only [processStep, if_neg hvt]
    by_cases hdm : dMem cur ("") = true
    · rcases hh hdm with ⟨d, rest0, hcur⟩
      have hcur' : appendCommonAll cur (stepCommon s lang) =
          ((""), if stepCommon s lang = "" then d
                 else pyStrip (d ++ "\n\n" ++ stepCommon s lang))
            :: appendCommonAll rest0 (stepCommon s lang) := by
        rw [hcur, appendCommonAll_cons_default]
      have hnd' : (dKeys (appendCommonAll cur (stepCommon s lang))).Nodup := by
        rw [dKeys_appendCommonAll]
        exact hnd
      rw [hcur'] at hnd'
      rcases nodup_cons_keys _ _ hnd' with ⟨hnotmem, hndrest⟩
      have hallrest : ∀ q ∈ appendCommonAll rest0 (stepCommon s lang), q.1 ≠ "" := by
        intro q hq hc
        apply hnotmem
        rw [← hc]
        exact (dMem_iff_keys _ q.1).mp (dMem_of_mem _ q hq)
      have hgetrest : dGet? (appendCommonAll rest0 (stepCommon s lang)) X =
          some (if stepCommon s lang = "" then cX
                else pyStrip (cX ++ "\n\n" ++ stepCommon s lang)) := by
        rw [hcur'] at hget'
        rwa [dGet?_cons_ne _ _ _ hXne] at hget'
      rw [hcur']
      simp only [branchesLoop]
      rcases tabsLoop_default
        (if stepCommon s lang = "" then d else pyStrip (d ++ "\n\n" ++ stepCommon s lang))
        (validTabsOf s lang) [] [] X hX (validTabsOf_nodup s lang) with ⟨hd1, hd2⟩
      rcases branchesLoop_self (validTabsOf s lang)
        (appendCommonAll rest0 (stepCommon s lang)) _ _ X
        (if stepCommon s lang = "" then cX else pyStrip (cX ++ "\n\n" ++ stepCommon s lang))
        hX hallrest hndrest (validTabsOf_nodup s lang) hvt hgetrest with ⟨hb1, hb2⟩
      cases hvx : dGet? (validTabsOf s lang) X with
      | some tc =>
        have hvmem : dMem (validTabsOf s lang) X = true := by
          rw [dMem_eq_isSome_dGet?, hvx]
          rfl
        have husedX : X ∈ (branchesLoop (validTabsOf s lang)
            (appendCommonAll rest0 (stepCommon s lang))
            (tabsLoop ("")
              (if stepCommon s lang = "" then d
               else pyStrip (d ++ "\n\n" ++ stepCommon s lang))
              (validTabsOf s lang) [] []).1
            (tabsLoop ("")
              (if stepCommon s lang = "" then d
               else pyStrip (d ++ "\n\n" ++ stepCommon s lang))
              (validTabsOf s lang) [] []).2).2 :=
          hb2.mpr (Or.inr hvmem)
        rw [unusedLoop_preserve _ _ _ _ X (Or.inr husedX), hb1, hvx]
        unfold stepUpdate
        rw [hvx]
      | none =>
        have hvmem : dMem (validTabsOf s lang) X = false := by
          rw [dMem_eq_isSome_dGet?, hvx]
          rfl
        have hmem1 : dMem (tabsLoop ("")
            (if stepCommon s lang = "" then d
             else pyStrip (d ++ "\n\n" ++ stepCommon s lang))
            (validTabsOf s lang) [] []).1 X = false := by
          rw [dMem_eq_isSome_dGet?, hd1, hvx]
          rfl
        rw [unusedLoop_preserve _ _ _ _ X (Or.inl hvmem), hb1, hvx]
        rw [hmem1]
        unfold stepUpdate
        rw [hvx]
        simp
    · have hdm' : dMem (appendCommonAll cur (stepCommon s lang)) ("") = false := by
        rw [dMem_appendCommonAll]
        cases hx : dMem cur ("")
        · rfl
        · exact absurd hx hdm
      have hall : ∀ q ∈ appendCommonAll cur (stepCommon s lang), q.1 ≠ "" :=
        dMem_false_forall _ _ hdm'
      have hnd' : (dKeys (appendCommonAll cur (stepCommon s lang))).Nodup := by
        rw [dKeys_appendCommonAll]
        exact hnd
      rcases branchesLoop_self (validTabsOf s lang)
        (appendCommonAll cur (stepCommon s lang)) [] [] X
        (if stepCommon s lang = "" then cX else pyStrip (cX ++ "\n\n" ++ stepCommon s lang))
        hX hall hnd' (validTabsOf_nodup s lang) hvt hget' with ⟨hb1, hb2⟩
      cases hvx : dGet? (validTabsOf s lang) X with
      | some tc =>
        have hvmem : dMem (validTabsOf s lang) X = true := by
          rw [dMem_eq_isSome_dGet?, hvx]
          rfl
        have husedX : X ∈ (branchesLoop (validTabsOf s lang)
            (appendCommonAll cur (stepCommon s lang)) [] []).2 :=
          hb2.mpr (Or.inr hvmem)
        rw [unusedLoop_preserve _ _ _ _ X (Or.inr husedX), hb1, hvx]
        unfold stepUpdate
        rw [hvx]
      | none =>
        have hvmem : dMem (validTabsOf s lang) X = false := by
          rw [dMem_eq_isSome_dGet?, hvx]
          rfl
        rw [unusedLoop_preserve _ _ _ _ X (Or.inl hvmem), hb1, hvx]
        have : dMem ([] : List (String × String)) X = false := rfl
        rw [this]
        unfold stepUpdate
        rw [hvx]
        simp

/-- Claim C3 (amended): provided no step of the prefix defines a valid variant
named `""` (the document parser cannot produce one), a non-empty-labeled
branch `X` present in the mapping after the prefix is still present after the
next step, and its code is updated with that step's common code, plus the
step's variant code exactly when the step defines a valid variant whose name
is string-equal to `X`; chaining this one-step fact over any suffix gives
persistence after every subsequent step. -/
theorem branch_persistence_amended (lang : String) (pre : List MdxStep) (s : MdxStep)
    (X cX : String) (hX : X ≠ "")
    (hpre : ∀ st ∈ pre, dMem (validTabsOf st lang) ("") = false)
    (hget : dGet? (buildCurrent pre lang) X = some cX) :
    dGet? (buildCurrent (pre ++ [s]) lang) X = some (stepUpdate cX s lang X) := by
  have hfold : buildCurrent (pre ++ [s]) lang =
      processStep lang (buildCurrent pre lang) s := by
    unfold buildCurrent
    rw [List.foldl_append]
    rfl
  rw [hfold]
  exact processStep_lookup lang _ s X cX hX (buildCurrent_nodup pre lang)
    (buildCurrent_default_head pre lang hpre) hget

/-- Witness for the amended C3: after the example scenario, re-running step 2
appends the Linux tab code to the Linux branch again. -/
theorem branch_persistence_amended_witness :
    dGet? (buildCurrent ([exStep1 ("python"), exStep2 ("python")] ++ [exStep2 ("python")])
      ("python")) ("Linux") =
      some (stepUpdate ("print(\"start\")\n\nprint(\"linux\")") (exStep2 ("python"))
        ("python") ("Linux")) :=
  branch_persistence_amended ("python") [exStep1 ("python"), exStep2 ("python")]
    (exStep2 ("python")) ("Linux") ("print(\"start\")\n\nprint(\"linux\")")
    (by decide) (by decide) (by decide)

/-! ### Claim C5: fresh-branch creation -/

/-- Claim C5: a valid variant name `t` that matches no existing branch label,
in a state with no default branch to spawn from, becomes a fresh branch seeded
with the step's common code plus its own code (its own code alone when the
common code is empty) — independent of every other branch's accumulation. -/
theorem fresh_branch_creation (lang : String) (cur : List (String × String))
    (s : MdxStep) (t tc : String)
    (hget : dGet? (validTabsOf s lang) t = some tc)
    (hnew : dMem cur t = false)
    (hnodef : dMem cur ("") = false) :
    dGet? (processStep lang cur s) t =
      some (if stepCommon s lang = "" then tc
            else pyStrip (stepCommon s lang ++ "\n\n" ++ tc)) := by
  have hvt : ¬(validTabsOf s lang).isEmpty = true := by
    cases hv : validTabsOf s lang
    · rw [hv] at hget
      simp [dGet?] at hget
    · simp [hv]
  simp only [processStep, if_neg hvt]
  have h1 : dMem (appendCommonAll cur (stepCommon s lang)) t = false := by
    rw [dMem_appendCommonAll]
    exact hnew
  have h2 : dMem (appendCommonAll cur (stepCommon s lang)) ("") = false := by
    rw [dMem_appendCommonAll]
    exact hnodef
  have hall : ∀ p ∈ appendCommonAll cur (stepCommon s lang), p.1 ≠ "" ∧ p.1 ≠ t := by
    intro p hp
    exact ⟨dMem_false_forall _ _ h2 p hp, dMem_false_forall _ _ h1 p hp⟩
  rcases branchesLoop_other (validTabsOf s lang)
    (appendCommonAll cur (stepCommon s lang)) [] [] t hall with ⟨_, hb2⟩
  have hnu : t ∉ (branchesLoop (validTabsOf s lang)
      (appendCommonAll cur (stepCommon s lang)) [] []).2 :=
    fun hc => absurd (hb2.mp hc) (List.not_mem_nil t)
  exact unusedLoop_adds (stepCommon s lang) (validTabsOf s lang) _ _ t tc
    (validTabsOf_nodup s lang) hget hnu

/-- Step used by the C5 witness: one variant B with code for python. -/
def c5Step : MdxStep :=
  { title := "w", common_code := [], tabs := [(("B"), [(("python"), ["B1"])])] }

/-- Witness for C5 at a state holding only an unrelated branch A. -/
theorem fresh_branch_creation_witness :
    dGet? (processStep ("python") [(("A"), ("x"))] c5Step) ("B") =
      some (if stepCommon c5Step ("python") = "" then "B1"
            else pyStrip (stepCommon c5Step ("python") ++ "\n\n" ++ "B1")) :=
  fresh_branch_creation ("python") [(("A"), ("x"))] c5Step ("B") ("B1")
    (by decide) (by decide) (by decide)

/-! ### Strings fixed by `pyStrip`, and joining them -/

theorem rstripL_eq_rdropWhile (l : List Char) : rstripL l = List.rdropWhile isPySpace l := rfl

theorem stripL_lstrip (l : List Char) (h : stripL l = l) : lstripL l = l := by
  have h1 : lstripL l <:+ l := List.dropWhile_suffix _
  have h2 : stripL l <+: lstripL l := List.rdropWhile_prefix isPySpace (lstripL l)
  apply h1.eq_of_length
  have e1 := h1.length_le
  have e2 := h2.length_le
  rw [h] at e2
  omega

theorem stripL_rstrip (l : List Char) (h : stripL l = l) : rstripL l = l := by
  have hl := stripL_lstrip l h
  unfold stripL at h
  rwa [hl] at h

theorem head_not_space (c : Char) (t : List Char) (h : lstripL (c :: t) = c :: t) :
    isPySpace c = false := by
  cases hc : isPySpace c
  · rfl
  · exfalso
    unfold lstripL at h
    rw [List.dropWhile_cons, if_pos hc] at h
    have hle := (List.dropWhile_suffix (l := t) isPySpace).length_le
    have := congrArg List.length h
    simp at this
    omega

theorem last_not_space (L : List Char) (c : Char) (h : rstripL (L ++ [c]) = L ++ [c]) :
    isPySpace c = false := by
  cases hc : isPySpace c
  · rfl
  · exfalso
    rw [rstripL_eq_rdropWhile, List.rdropWhile_concat_pos isPySpace L c hc] at h
    have hle := (List.rdropWhile_prefix isPySpace L).length_le
    have := congrArg List.length h
    simp at this
    omega

theorem lstripL_cons_not_space (c : Char) (t : List Char) (hc : isPySpace c = false) :
    lstripL (c :: t) = c :: t := by
  unfold lstripL
  rw [List.dropWhile_cons, if_neg (by simp [hc])]

theorem stripL_sandwich (a m b : List Char) (ha : stripL a = a) (hb : stripL b = b)
    (ha' : a ≠ []) (hb' : b ≠ []) : stripL (a ++ m ++ b) = a ++ m ++ b := by
  obtain ⟨c, t, rfl⟩ : ∃ c t, a = c :: t := by
    cases a with
    | nil => exact absurd rfl ha'
    | cons c t => exact ⟨c, t, rfl⟩
  have hc : isPySpace c = false := head_not_space c t (stripL_lstrip _ ha)
  rcases List.eq_nil_or_concat b with hbn | ⟨L, d, hb''⟩
  · exact absurd hbn hb'
  rw [List.concat_eq_append] at hb''
  subst hb''
  have hd : isPySpace d = false := last_not_space L d (stripL_rstrip _ hb)
  have h1 : lstripL ((c :: t) ++ m ++ (L ++ [d])) = (c :: t) ++ m ++ (L ++ [d]) :=
    lstripL_cons_not_space c (t ++ m ++ (L ++ [d])) hc
  have h2 : rstripL ((c :: t) ++ m ++ (L ++ [d])) = (c :: t) ++ m ++ (L ++ [d]) := by
    have hassoc : (c :: t) ++ m ++ (L ++ [d]) = ((c :: t) ++ m ++ L) ++ [d] := by
      simp [List.append_assoc]
    rw [hassoc, rstripL_eq_rdropWhile,
      List.rdropWhile_concat_neg isPySpace _ d (by simp [hd])]
  show rstripL (lstripL ((c :: t) ++ m ++ (L ++ [d]))) = _
  rw [h1, h2]

theorem stripL_idem (l : List Char) : stripL (stripL l) = stripL l := by
  have hr : rstripL (stripL l) = stripL l := by
    rw [rstripL_eq_rdropWhile]
    show List.rdropWhile isPySpace (List.rdropWhile isPySpace (lstripL l)) = _
    exact List.rdropWhile_idempotent _ _
  have hl : lstripL (stripL l) = stripL l := by
    cases hsl : stripL l with
    | nil => rfl
    | cons c t =>
      have hpre : stripL l <+: lstripL l := List.rdropWhile_prefix isPySpace (lstripL l)
      rw [hsl] at hpre
      rcases hpre with ⟨s, hs⟩
      have hne : List.dropWhile isPySpace l ≠ [] := by
        show lstripL l ≠ []
        rw [← hs]
        simp
      have hhead := List.head_dropWhile_not isPySpace l hne
      have hc : isPySpace c = false := by
        have hheq : (List.dropWhile isPySpace l).head hne = c := by
          have : lstripL l = c :: (t ++ s) := by
            rw [← hs]
            simp
          show (lstripL l).head hne = c
          simp [this]
        rwa [hheq] at hhead
      exact lstripL_cons_not_space c t hc
  have hdef : stripL (stripL l) = rstripL (lstripL (stripL l)) := rfl
  rw [hdef, hl, hr]

theorem pyStrip_data (s : String) : (pyStrip s).data = stripL s.data := rfl

theorem pyStrip_idem (s : String) : pyStrip (pyStrip s) = pyStrip s := by
  apply String.ext
  rw [pyStrip_data, pyStrip_data, stripL_idem]

theorem str_eq_empty_iff (a : String) : a = "" ↔ a.data = [] := by
  constructor
  · intro h
    subst h
    rfl
  · exact fun h => String.ext h

theorem str_append_ne_left (a b : String) (h : a ≠ "") : a ++ b ≠ "" := by
  intro hc
  rw [str_eq_empty_iff, String.data_append] at hc
  exact h ((str_eq_empty_iff a).mpr (List.append_eq_nil.mp hc).1)

/-- The blank-line gluing of two accumulated code strings: the step update
degenerates to the other argument when one side is empty. -/
def glue (a b : String) : String :=
  if a = "" then b else if b = "" then a else a ++ "\n\n" ++ b

theorem glue_empty_right (a : String) : glue a ("") = a := by
  unfold glue
  by_cases h : a = "" <;> simp [h]

theorem glue_empty_left (b : String) : glue ("") b = b := by
  simp [glue]

theorem glue_ne (a b : String) (ha : a ≠ "") : glue a b ≠ "" := by
  unfold glue
  rw [if_neg ha]
  by_cases hb : b = ""
  · simpa [hb]
  · rw [if_neg hb]
    exact str_append_ne_left _ _ (str_append_ne_left _ _ ha)

theorem pyStrip_eq_glue (a b : String) (ha : pyStrip a = a) (hb : pyStrip b = b)
    (hbne : b ≠ "") : pyStrip (a ++ "\n\n" ++ b) = glue a b := by
  have hb' : stripL b.data = b.data := congrArg String.data hb
  by_cases hae : a = ""
  · subst hae
    have hdata : (("" : String) ++ "\n\n" ++ b).data = '\n' :: '\n' :: b.data := by
      rw [String.data_append, String.data_append]
      rfl
    apply String.ext
    rw [pyStrip_data, hdata, glue_empty_left]
    show rstripL (lstripL ('\n' :: '\n' :: b.data)) = b.data
    have h1 : lstripL ('\n' :: '\n' :: b.data) = lstripL b.data := by
      unfold lstripL
      rw [List.dropWhile_cons, if_pos (by simp [isPySpace]),
        List.dropWhile_cons, if_pos (by simp [isPySpace])]
    rw [h1, stripL_lstrip b.data hb', stripL_rstrip b.data hb']
  · have ha' : stripL a.data = a.data := congrArg String.data ha
    have hdata : (a ++ "\n\n" ++ b).data = a.data ++ (("\n\n" : String)).data ++ b.data := by
      rw [String.data_append, String.data_append]
    unfold glue
    rw [if_neg hae, if_neg hbne]
    apply String.ext
    rw [pyStrip_data, hdata,
      stripL_sandwich a.data (("\n\n" : String)).data b.data ha' hb'
        (fun hc => hae ((str_eq_empty_iff a).mpr hc))
        (fun hc => hbne ((str_eq_empty_iff b).mpr hc)),
      ← hdata]

theorem glue_assoc (a b c : String) : glue (glue a b) c = glue a (glue b c) := by
  by_cases hae : a = ""
  · simp [hae, glue_empty_left]
  · by_cases hbe : b = ""
    · simp [glue, hbe, hae]
    · by_cases hce : c = ""
      · simp [hce, glue_empty_right]
      · have h1 : glue a b = a ++ "\n\n" ++ b := by simp [glue, hae, hbe]
        have h2 : glue b c = b ++ "\n\n" ++ c := by simp [glue, hbe, hce]
        rw [h1, h2]
        unfold glue
        rw [if_neg (str_append_ne_left _ _ (str_append_ne_left _ _ hae)), if_neg hce,
          if_neg hae, if_neg (str_append_ne_left _ _ (str_append_ne_left _ _ hbe))]
        simp [String.append_assoc]

theorem joinBlank_ne_empty (y : String) (ys : List String) (hy : y ≠ "") :
    joinBlank (y :: ys) ≠ "" := by
  cases ys with
  | nil => exact hy
  | cons z zs =>
    show y ++ "\n\n" ++ joinBlank (z :: zs) ≠ ""
    exact str_append_ne_left _ _ (str_append_ne_left _ _ hy)

theorem joinBlank_filter_cons (x : String) (l : List String) :
    joinBlank ((x :: l).filter (fun c => decide (c ≠ ""))) =
      glue x (joinBlank (l.filter (fun c => decide (c ≠ "")))) := by
  by_cases hx : x = ""
  · rw [List.filter_cons, if_neg (by simp [hx]), hx, glue_empty_left]
  · rw [List.filter_cons, if_pos (by simp [hx])]
    cases hf : l.filter (fun c => decide (c ≠ "")) with
    | nil =>
      rw [show joinBlank [x] = x from rfl,
        show joinBlank ([] : List String) = ("" : String) from rfl, glue_empty_right]
    | cons y ys =>
      have hy : y ≠ "" := by
        have hmem : y ∈ l.filter (fun c => decide (c ≠ "")) := by
          rw [hf]
          exact List.mem_cons_self y ys
        simpa using (List.mem_filter.mp hmem).2
      show x ++ "\n\n" ++ joinBlank (y :: ys) = glue x (joinBlank (y :: ys))
      rw [glue, if_neg hx, if_neg (joinBlank_ne_empty y ys hy)]

theorem commonFold_glue (cs : List String) (hcs : ∀ c ∈ cs, pyStrip c = c) :
    ∀ acc : String, pyStrip acc = acc →
      cs.foldl (fun a c => if c = "" then a else pyStrip (a ++ "\n\n" ++ c)) acc =
        glue acc (joinBlank (cs.filter (fun c => decide (c ≠ "")))) := by
  induction cs with
  | nil =>
    intro acc _
    rw [show ([] : List String).filter (fun c => decide (c ≠ "")) = [] from rfl]
    rw [show joinBlank [] = "" from rfl, glue_empty_right]
    rfl
  | cons c rest ih =>
    intro acc hacc
    rw [List.foldl_cons, joinBlank_filter_cons, ← glue_assoc]
    by_cases hc : c = ""
    · rw [if_pos hc, hc, glue_empty_right]
      exact ih (fun d hd => hcs d (List.mem_cons_of_mem c hd)) acc hacc
    · rw [if_neg hc,
        pyStrip_eq_glue acc c hacc (hcs c (List.mem_cons_self c rest)) hc]
      apply ih (fun d hd => hcs d (List.mem_cons_of_mem c hd))
      rw [← pyStrip_eq_glue acc c hacc (hcs c (List.mem_cons_self c rest)) hc]
      exact pyStrip_idem _

theorem commonFold_stripped (cs : List String) :
    ∀ acc : String, pyStrip acc = acc →
      pyStrip (cs.foldl (fun a c => if c = "" then a else pyStrip (a ++ "\n\n" ++ c)) acc) =
        cs.foldl (fun a c => if c = "" then a else pyStrip (a ++ "\n\n" ++ c)) acc := by
  induction cs with
  | nil => exact fun acc h => h
  | cons c rest ih =>
    intro acc hacc
    rw [List.foldl_cons]
    by_cases hc : c = ""
    · rw [if_pos hc]
      exact ih acc hacc
    · rw [if_neg hc]
      exact ih _ (pyStrip_idem _)

theorem processStep_no_tabs (lang : String) (cur : List (String × String)) (s : MdxStep)
    (h : s.tabs = []) :
    processStep lang cur s = appendCommonAll cur (stepCommon s lang) := by
  have hvt : validTabsOf s lang = [] := by
    unfold validTabsOf
    rw [h]
    rfl
  simp [processStep, hvt]

theorem buildCurrent_all_common (steps : List MdxStep) (lang : String)
    (h : ∀ s ∈ steps, s.tabs = []) :
    buildCurrent steps lang =
      [((""),
        (steps.map (fun s => stepCommon s lang)).foldl
          (fun a c => if c = "" then a else pyStrip (a ++ "\n\n" ++ c)) (""))] := by
  unfold buildCurrent
  suffices hgen : ∀ (st : List MdxStep) (acc : String), (∀ s ∈ st, s.tabs = []) →
      st.foldl (processStep lang) [((""), acc)] =
        [((""),
          (st.map (fun s => stepCommon s lang)).foldl
            (fun a c => if c = "" then a else pyStrip (a ++ "\n\n" ++ c)) acc)] by
    exact hgen steps ("") h
  intro st
  induction st with
  | nil => exact fun acc _ => rfl
  | cons s rest ih =>
    intro acc hst
    rw [List.foldl_cons, processStep_no_tabs lang _ s (hst s (List.mem_cons_self s rest))]
    have happ : appendCommonAll [((""), acc)] (stepCommon s lang) =
        [((""), if stepCommon s lang = "" then acc
                else pyStrip (acc ++ "\n\n" ++ stepCommon s lang))] := by
      unfold appendCommonAll
      by_cases hc : stepCommon s lang = "" <;> simp [hc]
    rw [happ, ih _ (fun q hq => hst q (List.mem_cons_of_mem s hq)), List.map_cons,
      List.foldl_cons]

/-- Claim C4 (amended): for a document whose steps all have empty variant
maps, the mapping has exactly one entry, keyed `""`, whose value is the
blank-line join of the per-step trimmed common-code concatenations (each
step's blocks blank-line-joined then trimmed), skipping steps whose trimmed
concatenation is empty.  (Joining all blocks first and trimming once is not
equivalent when a step contains empty or whitespace-only blocks.) -/
theorem default_only_amended (steps : List MdxStep) (lang : String)
    (h : ∀ s ∈ steps, s.tabs = []) :
    build_branches_for_language steps lang =
      [((""), joinBlank ((steps.map (fun s => stepCommon s lang)).filter
        (fun c => decide (c ≠ ""))))] := by
  have hstrip : ∀ c ∈ steps.map (fun s => stepCommon s lang), pyStrip c = c := by
    intro c hc
    rcases List.mem_map.mp hc with ⟨s, _, rfl⟩
    exact pyStrip_idem _
  have hempty : pyStrip ("") = ("") := by decide
  have hfix := commonFold_stripped (steps.map (fun s => stepCommon s lang)) ("") hempty
  have hval := commonFold_glue (steps.map (fun s => stepCommon s lang)) hstrip ("") hempty
  unfold build_branches_for_language
  rw [buildCurrent_all_common steps lang h, List.map_cons, List.map_nil]
  rw [hval] at hfix ⊢
  rw [glue_empty_left] at hfix ⊢
  rw [hfix]

/-- Witness for the amended C4: the counterexample document yields exactly
the join of the two per-step trimmed commons. -/
theorem default_only_amended_witness :
    build_branches_for_language [c4Step1, c4Step2] ("python") =
      [((""), joinBlank (([c4Step1, c4Step2].map
        (fun s => stepCommon s ("python"))).filter (fun c => decide (c ≠ ""))))] :=
  default_only_amended [c4Step1, c4Step2] ("python") (by
    intro s hs
    rcases List.mem_cons.mp hs with rfl | hs
    · rfl
    rcases List.mem_cons.mp hs with rfl | hs
    · rfl
    exact absurd hs (List.not_mem_nil s))

end DocsTester
